import Mathlib

/-!
Verification development for the wikitext etymology pipeline of
scripts/etymology.py.

The Python code works on strings; here a Python string is modelled as a
Lean list of characters (abbreviated Str), and each Python regular
expression substitution of the pipeline is modelled by an explicit
left-to-right scanner with the exact matching semantics of the pattern
involved (leftmost match, greedy or lazy as the pattern dictates,
scanning resuming after the end of each match, replacements not
rescanned).  Scanners that jump over a matched span take an explicit
fuel argument, always instantiated with the length of the scanned list,
which is enough fuel since every step consumes at least one character.

Python specifics modelled faithfully: str.strip removes characters from
both ends; str.split yields at least one piece and keeps empty pieces;
dict assignment overwrites, so for duplicate keys the last assignment
wins; re.sub with a function replaces every non-overlapping match.
Character classes are modelled at the ASCII level: the whitespace class
is the six ASCII whitespace characters, word characters are ASCII
letters, digits and underscore, and str.upper of the first character is
modelled as ASCII uppercasing.
-/

namespace Etym

/-- Python strings are modelled as lists of characters. -/
abbrev Str := List Char

/-- Shorthand turning a Lean string literal into its character list. -/
def str (s : String) : Str := s.data

/-- ASCII model of the whitespace class of Python regular expressions. -/
def isWsChar (c : Char) : Bool :=
  c = ' ' || c = '\t' || c = '\n' || c = '\r' || c = '\x0b' || c = '\x0c'

/-- ASCII model of the word-character class used by word boundaries. -/
def isWordChar (c : Char) : Bool :=
  (decide (97 ≤ c.toNat) && decide (c.toNat ≤ 122)) ||
  (decide (65 ≤ c.toNat) && decide (c.toNat ≤ 90)) ||
  (decide (48 ≤ c.toNat) && decide (c.toNat ≤ 57)) ||
  c = '_'

/-- Drop the longest suffix all of whose characters satisfy p. -/
def dropEndWhile (p : Char → Bool) (s : Str) : Str :=
  (s.reverse.dropWhile p).reverse

/-- Python str.strip with an arbitrary character class: remove matching
characters from both ends. -/
def pyStrip (p : Char → Bool) (s : Str) : Str :=
  dropEndWhile p (s.dropWhile p)

/-- Python str.strip() with no argument: strip whitespace. -/
def stripWs (s : Str) : Str := pyStrip isWsChar s

/-- The strip of curly braces performed at the top of parse_wiki_template. -/
def stripBraces (s : Str) : Str :=
  pyStrip (fun c => c = '\x7b' || c = '\x7d') s

/-- The strip of square brackets used by the polytonique handler. -/
def stripBrackets (s : Str) : Str :=
  pyStrip (fun c => c = '[' || c = ']') s

/-- Python str.split on a single separator character: always at least one
piece, empty pieces kept. -/
def pySplit (sep : Char) : Str → List Str
  | [] => [[]]
  | c :: rest =>
    let r := pySplit sep rest
    if c = sep then [] :: r
    else
      match r with
      | h :: t => (c :: h) :: t
      | [] => [[c]]

/-- Key part of a parameter: everything before the first equals sign. -/
def eqKey (p : Str) : Str := p.takeWhile (fun c => c != '=')

/-- Value part of a parameter: everything after the first equals sign. -/
def eqVal (p : Str) : Str := (p.dropWhile (fun c => c != '=')).drop 1

/-- Python dict assignment d[k] = v: overwrite the binding of k when k is
already present, otherwise add it. -/
def dinsert : List (Str × Str) → Str → Str → List (Str × Str)
  | [], k, v => [(k, v)]
  | (k', v') :: d, k, v =>
    if k' = k then (k', v) :: d else (k', v') :: dinsert d k v

/-- Python dict.get(k, dflt). -/
def dget (d : List (Str × Str)) (k dflt : Str) : Str :=
  match d.lookup k with
  | some v => v
  | none => dflt

/-- The parameter-collection loop of parse_wiki_template: walk the parts
after the template name in order; a part with an equals sign becomes a
named parameter (stripped key and value, later assignments overwriting
earlier ones), any other part is appended as the next positional
parameter (stripped). -/
def collectParamsAux : List Str → List Str × List (Str × Str) → List Str × List (Str × Str)
  | [], acc => acc
  | part :: rest, acc =>
    if part.contains '=' then
      collectParamsAux rest
        (acc.1, dinsert acc.2 (stripWs (eqKey part)) (stripWs (eqVal part)))
    else
      collectParamsAux rest (acc.1 ++ [stripWs part], acc.2)

/-- Positional and named parameters extracted from the parts after the
template name. -/
def collectParams (parts : List Str) : List Str × List (Str × Str) :=
  collectParamsAux parts ([], [])

/-- The sequence of named key/value pairs of a parts list, in source
order, before any overwriting: used to state which occurrence of a
duplicated key ends up in the mapping. -/
def namedSeq (parts : List Str) : List (Str × Str) :=
  parts.filterMap fun p =>
    if p.contains '=' then some (stripWs (eqKey p), stripWs (eqVal p)) else none

/-- The static language-code table of parse_wiki_template. -/
def lang_names : List (Str × Str) :=
  [ (str "en", str "anglais"), (str "la", str "latin"),
    (str "la-new", str "latin moderne"), (str "la-med", str "latin médiéval"),
    (str "grc", str "grec ancien"), (str "grc-koi", str "grec koinè"),
    (str "el", str "grec"),
    (str "fr", str "français"), (str "fro", str "ancien français"),
    (str "frm", str "moyen français"),
    (str "ang", str "vieil anglais"), (str "enm", str "moyen anglais"),
    (str "de", str "allemand"), (str "goh", str "vieux haut allemand"),
    (str "gmh", str "moyen haut allemand"),
    (str "non", str "vieux norrois"), (str "gem-pro", str "proto-germanique"),
    (str "ine-pro", str "proto-indo-européen"),
    (str "it", str "italien"), (str "es", str "espagnol"),
    (str "pt", str "portugais"),
    (str "ar", str "arabe"), (str "he", str "hébreu"),
    (str "sa", str "sanskrit"), (str "fa", str "persan"),
    (str "nl", str "néerlandais"), (str "dum", str "moyen néerlandais") ]

/-- lang_names.get(code, code): display name of a language code, the raw
code itself when the code is not in the table. -/
def langGet (code : Str) : Str := dget lang_names code code

/-- The dispatch over template names of parse_wiki_template, acting on
the stripped template name, the positional parameters and the named
parameters. -/
def interpTemplate (nm : Str) (pos : List Str) (named : List (Str × Str)) : Str :=
  if nm = str "étyl" then
    match pos with
    | [] => []
    | lang_code :: _ =>
      let lang := langGet lang_code
      let word0 := dget named (str "mot") []
      let word := if word0 = [] ∧ 3 ≤ pos.length then pos.getD 2 [] else word0
      let tr := dget named (str "tr") []
      if word ≠ [] then
        if tr ≠ [] then
          str "*" ++ lang ++ str "* *" ++ word ++ str "* (" ++ tr ++ str ")"
        else str "*" ++ lang ++ str "* *" ++ word ++ str "*"
      else str "*" ++ lang ++ str "*"
  else if nm = str "polytonique" then
    match pos with
    | [] => []
    | p0 :: _ =>
      let word := stripBrackets p0
      let tr := pos.getD 1 []
      let meaning := pos.getD 2 []
      if meaning ≠ [] then
        str "*" ++ word ++ str "* (" ++ tr ++ str ", « " ++ meaning ++ str " »)"
      else if tr ≠ [] then str "*" ++ word ++ str "* (" ++ tr ++ str ")"
      else str "*" ++ word ++ str "*"
  else if nm = str "date" then []
  else if nm = str "R" ∨ nm = str "réf" then []
  else if nm = str "bor" ∨ nm = str "borrowed" then
    if 3 ≤ pos.length then
      str "*" ++ langGet (pos.getD 1 []) ++ str "* *" ++ pos.getD 2 [] ++ str "*"
    else if 2 ≤ pos.length then str "*" ++ langGet (pos.getD 1 []) ++ str "*"
    else []
  else if nm = str "der" ∨ nm = str "derived" then
    if 3 ≤ pos.length then
      str "*" ++ langGet (pos.getD 1 []) ++ str "* *" ++ pos.getD 2 [] ++ str "*"
    else if 2 ≤ pos.length then str "*" ++ langGet (pos.getD 1 []) ++ str "*"
    else []
  else if nm = str "inh" ∨ nm = str "inherited" then
    if 3 ≤ pos.length then
      str "*" ++ langGet (pos.getD 1 []) ++ str "* *" ++ pos.getD 2 [] ++ str "*"
    else []
  else if nm = str "m" ∨ nm = str "mention" ∨ nm = str "l" ∨ nm = str "link" ∨ nm = str "lien" then
    if 2 ≤ pos.length then
      let lang := langGet (pos.getD 0 [])
      let word := pos.getD 1 []
      let gloss := if 4 ≤ pos.length ∧ pos.getD 3 [] ≠ [] then pos.getD 3 [] else []
      if gloss ≠ [] then
        str "*" ++ lang ++ str "* *" ++ word ++ str "* « " ++ gloss ++ str " »"
      else str "*" ++ lang ++ str "* *" ++ word ++ str "*"
    else []
  else if nm = str "cog" ∨ nm = str "cognate" then
    if 2 ≤ pos.length then
      str "*" ++ langGet (pos.getD 0 []) ++ str "* *" ++ pos.getD 1 [] ++ str "*"
    else []
  else []

/-- parse_wiki_template on character lists: strip the brace delimiters,
split on the pipe character, take the stripped first piece as the
template name, collect the remaining pieces as parameters and dispatch. -/
def parseTmplChars (t : Str) : Str :=
  let parts := pySplit '|' (stripBraces t)
  match parts with
  | [] => []
  | name :: rest =>
    let pn := collectParams rest
    interpTemplate (stripWs name) pn.1 pn.2

/-- The stripped template name of a raw template string. -/
def templateNameChars (t : Str) : Str :=
  match pySplit '|' (stripBraces t) with
  | [] => []
  | name :: _ => stripWs name

/-- parse_wiki_template on Lean strings. -/
def parse_wiki_template (t : String) : String := ⟨parseTmplChars t.data⟩

/-- The stripped template name, on Lean strings. -/
def templateName (t : String) : String := ⟨templateNameChars t.data⟩

/-- The template names recognized by the dispatch of parse_wiki_template. -/
def recognizedNames : List String :=
  ["étyl", "polytonique", "date", "R", "réf", "bor", "borrowed",
   "der", "derived", "inh", "inherited", "m", "mention", "l", "link",
   "lien", "cog", "cognate"]

/-- A string containing neither curly brace. -/
def braceFree (s : Str) : Bool :=
  s.all fun c => c != '\x7b' && c != '\x7d'

/-- Number of opening curly braces, the termination measure of the
fixpoint resolution loop. -/
def countLB (s : Str) : Nat := s.count '\x7b'

/-! The fixpoint resolver: the regular expression of the resolution pass
matches an opening double brace, a run of non-brace characters and a
closing double brace.  scanBody scans the part after an opening double
brace: it collects characters until the first brace; the match succeeds
exactly when that first brace starts a closing double brace. -/

/-- Scan for the body of an innermost template: the characters after an
opening double brace up to a closing double brace, failing on any
intervening brace.  Returns the body and the remainder after the closing
double brace. -/
def scanBody : Str → Option (Str × Str)
  | [] => none
  | c :: rest =>
    if c = '\x7b' then none
    else if c = '\x7d' then
      match rest with
      | d :: rest' => if d = '\x7d' then some ([], rest') else none
      | [] => none
    else
      match scanBody rest with
      | some (b, r) => some (c :: b, r)
      | none => none

/-- Leftmost match of the innermost-template pattern: returns the text
before the match, the matched body and the remainder after the match. -/
def findMatch : Str → Option (Str × Str × Str)
  | [] => none
  | c :: rest =>
    if c = '\x7b' then
      match rest with
      | d :: rest₂ =>
        if d = '\x7b' then
          match scanBody rest₂ with
          | some (b, r) => some ([], b, r)
          | none =>
            match findMatch rest with
            | some (p, b, r) => some (c :: p, b, r)
            | none => none
        else
          match findMatch rest with
          | some (p, b, r) => some (c :: p, b, r)
          | none => none
      | [] => none
    else
      match findMatch rest with
      | some (p, b, r) => some (c :: p, b, r)
      | none => none

/-- One resolution pass (one re.sub over the text): replace every
non-overlapping innermost template by its parsed fragment, scanning left
to right and resuming after each match. -/
def resolveStep : Nat → Str → Str
  | 0, s => s
  | fuel + 1, s =>
    match findMatch s with
    | none => s
    | some (p, b, r) =>
      p ++ parseTmplChars ('\x7b' :: '\x7b' :: (b ++ '\x7d' :: '\x7d' :: [])) ++
        resolveStep fuel r

/-- One resolution pass with adequate fuel. -/
def resolveOnce (s : Str) : Str := resolveStep s.length s

/-- The resolution loop: apply passes until a pass leaves the text
unchanged.  Returns the final text and the number of changing passes. -/
def resolveLoopAux : Nat → Str → Str × Nat
  | 0, s => (s, 0)
  | n + 1, s =>
    let t := resolveOnce s
    if t = s then (s, 0)
    else
      let uk := resolveLoopAux n t
      (uk.1, uk.2 + 1)

/-- The fixpoint of the resolution loop, with fuel bounding the possible
number of changing passes. -/
def resolveFixChars (s : Str) : Str := (resolveLoopAux (countLB s + 1) s).1

/-- The number of changing passes the resolution loop performs. -/
def resolvePassesChars (s : Str) : Nat := (resolveLoopAux (countLB s + 1) s).2

/-- The fixpoint resolver on Lean strings. -/
def resolveTemplates (s : String) : String := ⟨resolveFixChars s.data⟩

/-- The number of changing passes, on Lean strings. -/
def resolvePasses (s : String) : Nat := resolvePassesChars s.data

/-- Maximum template nesting depth of a text: an opening double brace
opens a template, a closing double brace closes the innermost open one,
other characters are skipped; the depth is the maximum number of
simultaneously open templates.  The scan consumes one character per
step, remembering in pend a brace that may pair with the next one. -/
def nestDepthAux : Str → Option Char → Nat → Nat → Nat
  | [], _, _, m => m
  | c :: rest, pend, d, m =>
    if c = '\x7b' then
      if pend = some '\x7b' then nestDepthAux rest none (d + 1) (max (d + 1) m)
      else nestDepthAux rest (some '\x7b') d m
    else if c = '\x7d' then
      if pend = some '\x7d' then nestDepthAux rest none (d - 1) m
      else nestDepthAux rest (some '\x7d') d m
    else nestDepthAux rest none d m

/-- Maximum template nesting depth, on character lists. -/
def nestDepthChars (s : Str) : Nat := nestDepthAux s none 0 0

/-- Maximum template nesting depth, on Lean strings. -/
def nestDepth (s : String) : Nat := nestDepthChars s.data

/-! The link flattener: one substitution with the wiki-link pattern,
which matches an opening double bracket, an optional target part made of
one or more characters other than pipe and closing bracket followed by a
pipe, then a display part of one or more characters other than closing
bracket, then a closing double bracket; the match is replaced by the
display part. -/

/-- Longest run of characters on which bad is false, together with the
remainder of the list. -/
def spanNot (bad : Char → Bool) : Str → Str × Str
  | [] => ([], [])
  | c :: rest =>
    if bad c then ([], c :: rest)
    else
      let ar := spanNot bad rest
      (c :: ar.1, ar.2)

/-- Try to match the interior of a wiki link at the current position
(just after the opening double bracket): first with the optional
target-and-pipe group, then without it.  Returns the display text and
the remainder after the closing double bracket. -/
def tryLink (r : Str) : Option (Str × Str) :=
  let a := spanNot (fun c => c = '|' || c = ']') r
  let withTarget :=
    match a.2 with
    | c :: r2 =>
      if c = '|' then
        if a.1 = [] then none
        else
          let b := spanNot (fun c => c = ']') r2
          match b.2 with
          | x :: y :: r4 =>
            if x = ']' ∧ y = ']' then
              if b.1 = [] then none else some (b.1, r4)
            else none
          | _ => none
      else none
    | [] => none
  match withTarget with
  | some dr => some dr
  | none =>
    let g := spanNot (fun c => c = ']') r
    match g.2 with
    | x :: y :: q =>
      if x = ']' ∧ y = ']' then
        if g.1 = [] then none else some (g.1, q)
      else none
    | _ => none

/-- The link-flattening substitution: scan left to right, replacing each
wiki link by its display text and resuming after the match. -/
def linkAux : Nat → Str → Str
  | 0, s => s
  | fuel + 1, s =>
    match s with
    | [] => []
    | c :: rest =>
      if c = '[' then
        match rest with
        | d :: rest₂ =>
          if d = '[' then
            match tryLink rest₂ with
            | some dr => dr.1 ++ linkAux fuel dr.2
            | none => c :: linkAux fuel rest
          else c :: linkAux fuel rest
        | [] => [c]
      else c :: linkAux fuel rest

/-- The link flattener on character lists. -/
def flattenLinksChars (s : Str) : Str := linkAux s.length s

/-- The link flattener on Lean strings. -/
def flattenLinks (s : String) : String := ⟨flattenLinksChars s.data⟩

/-! The markup scrubber: the ordered sequence of substitutions applied
after link flattening, each modelled as its own scanner. -/

/-- Quote-markup removal: each match of two quotes followed by an
optional third quote is removed, scanning left to right. -/
def quoteAux : Nat → Str → Str
  | 0, s => s
  | fuel + 1, s =>
    match s with
    | [] => []
    | c :: rest =>
      if c = '\'' then
        match rest with
        | d :: rest₂ =>
          if d = '\'' then
            match rest₂ with
            | e :: rest₃ =>
              if e = '\'' then quoteAux fuel rest₃ else quoteAux fuel rest₂
            | [] => []
          else c :: quoteAux fuel rest
        | [] => [c]
      else c :: quoteAux fuel rest

/-- Quote-markup removal with adequate fuel. -/
def quoteRule (s : Str) : Str := quoteAux s.length s

/-- Remainder after the first greater-than sign, if any. -/
def afterGt : Str → Option Str
  | [] => none
  | c :: rest => if c = '>' then some rest else afterGt rest

/-- Lazy scan for a closing reference tag: at each position first try to
match the closing tag, otherwise consume one non-newline character; a
newline stops the scan since the dot of the pattern does not match it.
Returns the remainder after the closing tag. -/
def afterCloseRef : Str → Option Str
  | [] => none
  | c :: rest =>
    if (str "</ref>").isPrefixOf (c :: rest) then some ((c :: rest).drop 6)
    else if c = '\n' then none
    else afterCloseRef rest

/-- Reference-span removal: each match of an opening reference tag, a
lazy run of non-newline characters and a closing reference tag is
removed. -/
def refSpanAux : Nat → Str → Str
  | 0, s => s
  | fuel + 1, s =>
    match s with
    | [] => []
    | c :: rest =>
      if (str "<ref").isPrefixOf s then
        match afterGt (s.drop 4) with
        | some r1 =>
          match afterCloseRef r1 with
          | some r2 => refSpanAux fuel r2
          | none => c :: refSpanAux fuel rest
        | none => c :: refSpanAux fuel rest
      else c :: refSpanAux fuel rest

/-- Reference-span removal with adequate fuel. -/
def refSpanRule (s : Str) : Str := refSpanAux s.length s

/-- After the interior of a self-closing tag: scan for the first
greater-than sign; the match succeeds only when a slash immediately
precedes it.  Returns the remainder after the sign. -/
def afterGtSlash : Str → Option Str
  | [] => none
  | [_] => none
  | c :: d :: rest =>
    if c = '>' then none
    else if c = '/' ∧ d = '>' then some rest
    else afterGtSlash (d :: rest)

/-- Self-closing reference-tag removal. -/
def selfCloseAux : Nat → Str → Str
  | 0, s => s
  | fuel + 1, s =>
    match s with
    | [] => []
    | c :: rest =>
      if (str "<ref").isPrefixOf s then
        match afterGtSlash (s.drop 4) with
        | some r => selfCloseAux fuel r
        | none => c :: selfCloseAux fuel rest
      else c :: selfCloseAux fuel rest

/-- Self-closing reference-tag removal with adequate fuel. -/
def selfCloseRule (s : Str) : Str := selfCloseAux s.length s

/-- After the interior of a generic tag: at least one character other
than the greater-than sign, then the sign itself. -/
def afterTagGt : Str → Option Str
  | [] => none
  | c :: rest => if c = '>' then none else afterGt rest

/-- Removal of remaining tags: each match of a less-than sign, one or
more characters other than the greater-than sign and the sign itself is
removed. -/
def tagAux : Nat → Str → Str
  | 0, s => s
  | fuel + 1, s =>
    match s with
    | [] => []
    | c :: rest =>
      if c = '<' then
        match afterTagGt rest with
        | some r => tagAux fuel r
        | none => c :: tagAux fuel rest
      else c :: tagAux fuel rest

/-- Removal of remaining tags with adequate fuel. -/
def tagRule (s : Str) : Str := tagAux s.length s

/-- Word-boundary check on the left of a literal: satisfied at the start
of the text or after a non-word character. -/
def prevOk : Option Char → Bool
  | none => true
  | some p => !isWordChar p

/-- Word-boundary check on the right of a literal: satisfied at the end
of the text or before a non-word character. -/
def nextOk : Str → Bool
  | [] => true
  | n :: _ => !isWordChar n

/-- Substitution of a literal word with boundaries on both sides by a
replacement, scanning left to right; prev is the character just before
the current position. -/
def litBoundAux (lit repl : Str) : Nat → Option Char → Str → Str
  | 0, _, s => s
  | fuel + 1, prev, s =>
    match s with
    | [] => []
    | c :: rest =>
      if lit.isPrefixOf s ∧ prevOk prev ∧ nextOk (s.drop lit.length) then
        repl ++ litBoundAux lit repl fuel lit.getLast? (s.drop lit.length)
      else c :: litBoundAux lit repl fuel (some c) rest

/-- Substitution of a bounded literal word with adequate fuel. -/
def litBoundRule (lit repl : Str) (s : Str) : Str :=
  litBoundAux lit repl s.length none s

/-- Removal of the truncated boilerplate sentence: the literal phrase,
then any run of whitespace, then an optional period. -/
def displacedAux : Nat → Str → Str
  | 0, s => s
  | fuel + 1, s =>
    match s with
    | [] => []
    | c :: rest =>
      if (str "Displaced native").isPrefixOf s then
        let r1 := (s.drop 16).dropWhile isWsChar
        let r2 := match r1 with
                  | '.' :: t => t
                  | _ => r1
        displacedAux fuel r2
      else c :: displacedAux fuel rest

/-- Removal of the truncated boilerplate sentence with adequate fuel. -/
def displacedRule (s : Str) : Str := displacedAux s.length s

/-- Replace every whitespace character by a plain space. -/
def mapWs (s : Str) : Str := s.map fun c => if isWsChar c then ' ' else c

/-- Collapse runs of spaces to a single space. -/
def squeeze : Str → Str
  | [] => []
  | [c] => [c]
  | c :: d :: rest =>
    if c = ' ' ∧ d = ' ' then squeeze (d :: rest) else c :: squeeze (d :: rest)

/-- The whitespace normalization of the scrubber: collapse every
whitespace run to a single space, then strip both ends. -/
def wsNorm (s : Str) : Str := stripWs (squeeze (mapWs s))

/-- Removal of one leading colon together with the whitespace after it. -/
def colonRule (s : Str) : Str :=
  match s with
  | [] => []
  | c :: rest => if c = ':' then rest.dropWhile isWsChar else s

/-- After an opening parenthesis: a run of whitespace then the closing
parenthesis; returns the remainder after it. -/
def parenClose : Str → Option Str
  | [] => none
  | c :: rest =>
    if c = ')' then some rest
    else if isWsChar c then parenClose rest
    else none

/-- Removal of empty parenthetical groups. -/
def parensAux : Nat → Str → Str
  | 0, s => s
  | fuel + 1, s =>
    match s with
    | [] => []
    | c :: rest =>
      if c = '(' then
        match parenClose rest with
        | some r => parensAux fuel r
        | none => c :: parensAux fuel rest
      else c :: parensAux fuel rest

/-- Removal of empty parenthetical groups with adequate fuel. -/
def parensRule (s : Str) : Str := parensAux s.length s

/-- After a first comma: a run of whitespace then a second comma;
returns the remainder after the second comma. -/
def commaSecond : Str → Option Str
  | [] => none
  | c :: rest =>
    if c = ',' then some rest
    else if isWsChar c then commaSecond rest
    else none

/-- Collapse of doubled commas: each match of comma, whitespace run and
comma is replaced by a single comma. -/
def commaAux : Nat → Str → Str
  | 0, s => s
  | fuel + 1, s =>
    match s with
    | [] => []
    | c :: rest =>
      if c = ',' then
        match commaSecond rest with
        | some r => ',' :: commaAux fuel r
        | none => c :: commaAux fuel rest
      else c :: commaAux fuel rest

/-- Collapse of doubled commas with adequate fuel. -/
def commaRule (s : Str) : Str := commaAux s.length s

/-- Removal of a trailing comma or semicolon together with the
whitespace around it, anchored at the end of the text. -/
def trailingRule (s : Str) : Str :=
  let r := dropEndWhile isWsChar s
  match r.getLast? with
  | some c =>
    if c = ',' ∨ c = ';' then dropEndWhile isWsChar r.dropLast else s
  | none => s

/-- ASCII model of Python uppercasing of a single character. -/
def pyUpperChar (c : Char) : Char :=
  if 97 ≤ c.toNat ∧ c.toNat ≤ 122 then Char.ofNat (c.toNat - 32) else c

/-- Capitalization of the first character. -/
def capRule : Str → Str
  | [] => []
  | c :: rest => pyUpperChar c :: rest

/-- The full ordered rule sequence of the markup scrubber, in the order
the code applies them after link flattening. -/
def scrubChars (s : Str) : Str :=
  capRule
    (trailingRule
      (wsNorm
        (commaRule
          (parensRule
            (colonRule
              (wsNorm
                (displacedRule
                  (litBoundRule (str "la-new") (str "New Latin")
                    (litBoundRule (str "la-med") (str "Medieval Latin")
                      (litBoundRule (str "la-lat") (str "Late Latin")
                        (tagRule
                          (selfCloseRule
                            (refSpanRule
                              (quoteRule s))))))))))))))

/-- The markup scrubber on Lean strings. -/
def markupScrub (s : String) : String := ⟨scrubChars s.data⟩

/-- The whole post-extraction pipeline on the text of an etymology
section: initial strip, fixpoint template resolution, link flattening
and scrubbing. -/
def etymPipelineChars (s : Str) : Str :=
  scrubChars (flattenLinksChars (resolveFixChars (stripWs s)))

/-- The scrubbed etymology text of a section, on Lean strings. -/
def scrubbedResult (s : String) : String := ⟨etymPipelineChars s.data⟩

/-- The overall result of fetch_etymology_parse_api on an extracted
etymology section: the scrubbed text when it is nonempty and longer than
ten characters, absence otherwise. -/
def fetchEtymologyResult (s : String) : Option String :=
  let e := etymPipelineChars s.data
  if e ≠ [] ∧ 10 < e.length then some ⟨e⟩ else none

/-- Occurrence of a pattern as a contiguous substring. -/
def containsSub (pat : Str) : Str → Bool
  | [] => pat.isPrefixOf []
  | c :: rest => pat.isPrefixOf (c :: rest) || containsSub pat rest

/-!  Theorems.  Each claim of the specification is settled by one
theorem below, with auxiliary lemmas shared between them. -/

/-- C6: the origin template handler looks up the first positional
parameter in the language table, takes the foreign word from the named
parameter mot or else from the third positional parameter, and appends
the optional tr transliteration in parentheses; in particular the
template with mot=chaos resolves to the italicized Latin pair, the one
with mot=χάος and tr=kháos appends the transliteration, and a bare third
positional parameter is used when mot is absent. -/
theorem etyl_examples :
    parse_wiki_template "\x7b\x7bétyl|la|fr|mot=chaos\x7d\x7d" = "*latin* *chaos*" ∧
    parse_wiki_template "\x7b\x7bétyl|grc|fr|mot=χάος|tr=kháos\x7d\x7d"
      = "*grec ancien* *χάος* (kháos)" ∧
    parse_wiki_template "\x7b\x7bétyl|la|fr|paradoxon\x7d\x7d" = "*latin* *paradoxon*" := by
  refine ⟨?_, ?_, ?_⟩ <;> decide

/-- C8 counterexample: scrubbing the documented example does not yield
the documented result: the leading comma is never removed, since only
trailing punctuation is trimmed. -/
theorem scrub_coucou_counterexample :
    markupScrub "  , ,  coucou ()  ," ≠ "Coucou" := by decide

/-- C8 amended: scrubbing the example collapses whitespace, collapses
the doubled comma, removes the empty parentheses and trims the trailing
comma, but keeps the leading comma, yielding the comma-prefixed string;
re-scrubbing that result changes nothing, and scrubbing the string
Coucou also changes nothing. -/
theorem scrub_coucou_actual :
    markupScrub "  , ,  coucou ()  ," = ", coucou" ∧
    markupScrub ", coucou" = ", coucou" ∧
    markupScrub "Coucou" = "Coucou" := by
  refine ⟨?_, ?_, ?_⟩ <;> decide

/-- C2 counterexample: the markup scrubber is not idempotent: a text
starting with two colons loses one colon per scrub, so scrubbing the
scrubbed output changes it again. -/
theorem scrub_not_idempotent_counterexample :
    markupScrub (markupScrub "::a") ≠ markupScrub "::a" := by decide

/-- C3 counterexample: for duplicate named-parameter keys the mapping
binds the key to the value of the last occurrence, not the first: with
mot given twice the parsed fragment uses the second value. -/
theorem named_params_first_wins_counterexample :
    dget (collectParams [str "la", str "fr", str "mot=chaos", str "mot=kosmos"]).2
        (str "mot") [] = str "kosmos" ∧
    parse_wiki_template "\x7b\x7bétyl|la|fr|mot=chaos|mot=kosmos\x7d\x7d"
      = "*latin* *kosmos*" ∧
    parse_wiki_template "\x7b\x7bétyl|la|fr|mot=chaos|mot=kosmos\x7d\x7d"
      ≠ "*latin* *chaos*" := by
  refine ⟨?_, ?_, ?_⟩ <;> decide

/-- C7 counterexample: the inheritance templates have no language-only
form: with a language code in position 2 and no word in position 3 the
inh handler falls through to the empty fragment, unlike bor. -/
theorem inherited_language_only_counterexample :
    parse_wiki_template "\x7b\x7binh|fr|la\x7d\x7d" = "" ∧
    parse_wiki_template "\x7b\x7bbor|fr|la\x7d\x7d" = "*latin*" := by
  refine ⟨?_, ?_⟩ <;> decide

/-- C9 counterexample: with an empty display part the link pattern does
not match in the documented way: the optional target group fails, the
display group consumes target and pipe, and the flattened text is the
target followed by the pipe rather than the empty display. -/
theorem link_flatten_empty_display_counterexample :
    flattenLinks "[[x|]]" = "x|" ∧ flattenLinks "[[x|]]" ≠ "" := by
  refine ⟨?_, ?_⟩ <;> decide

/-- C1 counterexample: the number of changing passes of the fixpoint
resolution loop can exceed the maximum template nesting depth of the
input: a stray single brace on each side of an innermost template joins
into a fresh template once the innermost one is resolved, so this input
of nesting depth one needs two changing passes. -/
theorem resolver_pass_depth_counterexample :
    ¬ resolvePasses "\x7b\x7b\x7ba\x7d\x7d\x7bb\x7d\x7d"
        ≤ nestDepth "\x7b\x7b\x7ba\x7d\x7d\x7bb\x7d\x7d" := by decide

/-- C4: the quality gate: whenever the fully scrubbed etymology text of
a section is empty or at most ten characters long, the overall result
of the pipeline is absence, never the short string itself. -/
theorem quality_gate_short_yields_none (s : String)
    (h : (scrubbedResult s).length ≤ 10) : fetchEtymologyResult s = none := by
  have h' : (etymPipelineChars s.data).length ≤ 10 := h
  unfold fetchEtymologyResult
  rw [if_neg]
  intro hc
  exact absurd hc.2 (by omega)

/-- C4 witness: a three-character section scrubs to a short text and the
pipeline result is absence. -/
theorem quality_gate_short_yields_none_witness :
    (scrubbedResult "abc").length ≤ 10 ∧ fetchEtymologyResult "abc" = none :=
  ⟨by decide, quality_gate_short_yields_none "abc" (by decide)⟩

/-- The dispatch falls through to the empty fragment when the template
name equals none of the recognized names. -/
theorem interpTemplate_unknown (nm : Str) (pos : List Str) (named : List (Str × Str))
    (h : ∀ x ∈ recognizedNames, nm ≠ str x) :
    interpTemplate nm pos named = [] := by
  have h1 : nm ≠ str "étyl" := h _ (by decide)
  have h2 : nm ≠ str "polytonique" := h _ (by decide)
  have h3 : nm ≠ str "date" := h _ (by decide)
  have h4 : nm ≠ str "R" := h _ (by decide)
  have h5 : nm ≠ str "réf" := h _ (by decide)
  have h6 : nm ≠ str "bor" := h _ (by decide)
  have h7 : nm ≠ str "borrowed" := h _ (by decide)
  have h8 : nm ≠ str "der" := h _ (by decide)
  have h9 : nm ≠ str "derived" := h _ (by decide)
  have h10 : nm ≠ str "inh" := h _ (by decide)
  have h11 : nm ≠ str "inherited" := h _ (by decide)
  have h12 : nm ≠ str "m" := h _ (by decide)
  have h13 : nm ≠ str "mention" := h _ (by decide)
  have h14 : nm ≠ str "l" := h _ (by decide)
  have h15 : nm ≠ str "link" := h _ (by decide)
  have h16 : nm ≠ str "lien" := h _ (by decide)
  have h17 : nm ≠ str "cog" := h _ (by decide)
  have h18 : nm ≠ str "cognate" := h _ (by decide)
  unfold interpTemplate
  rw [if_neg h1, if_neg h2, if_neg h3,
    if_neg (not_or.mpr ⟨h4, h5⟩), if_neg (not_or.mpr ⟨h6, h7⟩),
    if_neg (not_or.mpr ⟨h8, h9⟩), if_neg (not_or.mpr ⟨h10, h11⟩),
    if_neg (by
      intro hc
      rcases hc with hc | hc | hc | hc | hc
      exacts [h12 hc, h13 hc, h14 hc, h15 hc, h16 hc]),
    if_neg (not_or.mpr ⟨h17, h18⟩)]

/-- C5: a template whose stripped name is not one of the recognized
names resolves to the empty fragment; the interpreter is a total
function, so no input raises. -/
theorem unknown_template_empty (t : String)
    (h : templateName t ∉ recognizedNames) : parse_wiki_template t = "" := by
  have hx : parseTmplChars t.data = [] := by
    have hne : ∀ x ∈ recognizedNames, templateNameChars t.data ≠ str x := by
      intro x hmem hEq
      apply h
      have hTN : templateName t = x := by
        unfold templateName
        rw [hEq]
        cases x
        rfl
      rw [hTN]; exact hmem
    unfold parseTmplChars
    unfold templateNameChars at hne
    cases hps : pySplit '|' (stripBraces t.data) with
    | nil => rfl
    | cons name rest =>
      rw [hps] at hne
      exact interpTemplate_unknown _ _ _ hne
  unfold parse_wiki_template
  rw [hx]

/-- C5 witness: a concrete template with an unrecognized name resolves
to the empty fragment. -/
theorem unknown_template_empty_witness :
    templateName "\x7b\x7bfoobar|x\x7d\x7d" ∉ recognizedNames ∧
    parse_wiki_template "\x7b\x7bfoobar|x\x7d\x7d" = "" :=
  ⟨by decide, unknown_template_empty _ (by decide)⟩

/-- Lookup in a consed association list, phrased with a propositional
conditional. -/
theorem lookup_cons (a b : Str) (rest : List (Str × Str)) (k : Str) :
    ((a, b) :: rest).lookup k = if k = a then some b else rest.lookup k := by
  by_cases h : k = a
  · simp [List.lookup, h]
  · have hb : (k == a) = false := by simp [h]
    simp [List.lookup, hb, h]

/-- Overwriting insertion: looking up the inserted key yields the new
value, any other key is unaffected. -/
theorem dinsert_lookup (d : List (Str × Str)) (k v k' : Str) :
    (dinsert d k v).lookup k' = if k' = k then some v else d.lookup k' := by
  induction d with
  | nil =>
    rw [show dinsert [] k v = [(k, v)] from rfl, lookup_cons]
  | cons kv rest ih =>
    obtain ⟨a, b⟩ := kv
    by_cases hak : a = k
    · subst hak
      rw [show dinsert ((a, b) :: rest) a v = (a, v) :: rest from by
        simp [dinsert], lookup_cons, lookup_cons]
      by_cases h : k' = a
      · simp [h]
      · simp [h]
    · rw [show dinsert ((a, b) :: rest) k v = (a, b) :: dinsert rest k v from by
        simp [dinsert, hak], lookup_cons, ih, lookup_cons]
      by_cases h : k' = a
      · subst h
        simp [hak]
      · simp [h]

/-- Lookup distributes over appended association lists. -/
theorem lookup_append (l₁ l₂ : List (Str × Str)) (k : Str) :
    (l₁ ++ l₂).lookup k =
      match l₁.lookup k with
      | some v => some v
      | none => l₂.lookup k := by
  induction l₁ with
  | nil => simp [List.lookup]
  | cons kv rest ih =>
    obtain ⟨a, b⟩ := kv
    rw [List.cons_append, lookup_cons, lookup_cons, ih]
    by_cases h : k = a
    · rw [if_pos h, if_pos h]
    · rw [if_neg h, if_neg h]

/-- The named-parameter mapping built by the collection loop: looking up
a key yields the value of the last part that assigned it, with the
accumulator consulted only when no part assigns it. -/
theorem collectParamsAux_lookup (parts : List Str) (pos : List Str)
    (d : List (Str × Str)) (k : Str) :
    ((collectParamsAux parts (pos, d)).2).lookup k =
      match ((namedSeq parts).reverse).lookup k with
      | some v => some v
      | none => d.lookup k := by
  induction parts generalizing pos d with
  | nil => simp [collectParamsAux, namedSeq, List.lookup]
  | cons part rest ih =>
    by_cases hp : '=' ∈ part
    · have hstep : collectParamsAux (part :: rest) (pos, d)
          = collectParamsAux rest
              (pos, dinsert d (stripWs (eqKey part)) (stripWs (eqVal part))) := by
        simp [collectParamsAux, hp]
      have hseq : namedSeq (part :: rest)
          = (stripWs (eqKey part), stripWs (eqVal part)) :: namedSeq rest := by
        simp [namedSeq, hp]
      rw [hstep, ih, dinsert_lookup, hseq, List.reverse_cons, lookup_append,
        lookup_cons]
      cases hrev : ((namedSeq rest).reverse).lookup k with
      | some v => rfl
      | none =>
        by_cases hk : k = stripWs (eqKey part)
        · rw [if_pos hk, if_pos hk]
        · rw [if_neg hk, if_neg hk]
          simp [List.lookup]
    · have hstep : collectParamsAux (part :: rest) (pos, d)
          = collectParamsAux rest (pos ++ [stripWs part], d) := by
        simp [collectParamsAux, hp]
      have hseq : namedSeq (part :: rest) = namedSeq rest := by
        simp [namedSeq, hp]
      rw [hstep, ih, hseq]

/-- C3 amended: for duplicate named-parameter keys the mapping used by
the interpreter binds each key to the value of its last occurrence, not
its first: looking a key up in the built mapping is looking it up in
the reversed source-order sequence of named pairs. -/
theorem named_params_last_wins (parts : List Str) (k : Str) :
    ((collectParams parts).2).lookup k = ((namedSeq parts).reverse).lookup k := by
  rw [collectParams, collectParamsAux_lookup]
  cases ((namedSeq parts).reverse).lookup k <;> simp [List.lookup]

/-- Dropping over an all-satisfying block continues behind it. -/
theorem dropWhile_append_all (p : Char → Bool) (pre l : Str)
    (h : ∀ c ∈ pre, p c = true) : (pre ++ l).dropWhile p = l.dropWhile p := by
  induction pre with
  | nil => rfl
  | cons c rest ih =>
    rw [List.cons_append, List.dropWhile_cons_of_pos (h c (List.mem_cons_self c rest))]
    exact ih fun d hd => h d (List.mem_cons_of_mem c hd)

/-- Dropping leaves a list whose characters all fail the test alone. -/
theorem dropWhile_all_false (p : Char → Bool) (l : Str)
    (h : ∀ c ∈ l, p c = false) : l.dropWhile p = l := by
  cases l with
  | nil => rfl
  | cons c rest =>
    exact List.dropWhile_cons_of_neg (by simp [h c (List.mem_cons_self c rest)])

/-- Dropping over an all-satisfying block empties it. -/
theorem dropWhile_all_true (p : Char → Bool) (l : Str)
    (h : ∀ c ∈ l, p c = true) : l.dropWhile p = [] := by
  induction l with
  | nil => rfl
  | cons c rest ih =>
    rw [List.dropWhile_cons_of_pos (h c (List.mem_cons_self c rest))]
    exact ih fun d hd => h d (List.mem_cons_of_mem c hd)

/-- End-dropping ignores an all-satisfying suffix. -/
theorem dropEndWhile_append_all (p : Char → Bool) (l post : Str)
    (h : ∀ c ∈ post, p c = true) : dropEndWhile p (l ++ post) = dropEndWhile p l := by
  unfold dropEndWhile
  rw [List.reverse_append,
    dropWhile_append_all p post.reverse _ fun c hc => h c (List.mem_reverse.mp hc)]

/-- End-dropping leaves a list whose characters all fail the test alone. -/
theorem dropEndWhile_all_false (p : Char → Bool) (l : Str)
    (h : ∀ c ∈ l, p c = false) : dropEndWhile p l = l := by
  unfold dropEndWhile
  rw [dropWhile_all_false p _ fun c hc => h c (List.mem_reverse.mp hc),
    List.reverse_reverse]

/-- Stripping a wrapped text: a prefix and a suffix of stripped
characters go away, a middle free of them stays. -/
theorem pyStrip_wrap (p : Char → Bool) (pre mid post : Str)
    (hpre : ∀ c ∈ pre, p c = true) (hpost : ∀ c ∈ post, p c = true)
    (hmid : ∀ c ∈ mid, p c = false) :
    pyStrip p (pre ++ mid ++ post) = mid := by
  unfold pyStrip
  rw [List.append_assoc, dropWhile_append_all p pre _ hpre]
  cases hm : mid with
  | nil =>
    rw [List.nil_append, dropWhile_all_true p post hpost]
    rfl
  | cons c rest =>
    have hc : p c = false := hmid c (by rw [hm]; exact List.mem_cons_self c rest)
    rw [List.cons_append, List.dropWhile_cons_of_neg (by simp [hc]),
      ← List.cons_append, dropEndWhile_append_all p _ _ hpost,
      dropEndWhile_all_false p _ (by rw [← hm]; exact hmid)]

/-- Characters of a brace-free text are neither brace. -/
theorem braceFree_mem {l : Str} (h : braceFree l = true) :
    ∀ c ∈ l, (c = '\x7b' || c = '\x7d') = false := by
  intro c hc
  have h2 := (List.all_eq_true.mp h) c hc
  simp only [bne_iff_ne, ne_eq, Bool.and_eq_true] at h2
  simp [h2.1, h2.2]

/-- Stripping the braces of a brace-delimited template with brace-free
interior recovers the interior. -/
theorem stripBraces_wrap (inner : Str) (h : braceFree inner = true) :
    stripBraces ('\x7b' :: '\x7b' :: (inner ++ ['\x7d', '\x7d'])) = inner := by
  have he : '\x7b' :: '\x7b' :: (inner ++ ['\x7d', '\x7d'])
      = ['\x7b', '\x7b'] ++ inner ++ ['\x7d', '\x7d'] := by simp
  rw [he]
  exact pyStrip_wrap _ _ _ _ (by decide) (by decide) (braceFree_mem h)

/-- Splitting a text free of the separator yields one piece. -/
theorem pySplit_no_sep (sep : Char) (l : Str) (h : sep ∉ l) :
    pySplit sep l = [l] := by
  induction l with
  | nil => rfl
  | cons c rest ih =>
    have hc : ¬c = sep := fun hcs => h (hcs ▸ List.mem_cons_self c rest)
    simp only [pySplit]
    rw [ih fun hm => h (List.mem_cons_of_mem c hm)]
    simp [hc]

/-- Splitting past a separator-free piece produces that piece and
continues behind the separator. -/
theorem pySplit_append_sep (sep : Char) (a rest : Str) (h : sep ∉ a) :
    pySplit sep (a ++ sep :: rest) = a :: pySplit sep rest := by
  induction a with
  | nil => simp [pySplit]
  | cons c aa ih =>
    have hc : ¬c = sep := fun hcs => h (hcs ▸ List.mem_cons_self c aa)
    simp only [List.cons_append, pySplit, List.append_eq]
    rw [ih fun hm => h (List.mem_cons_of_mem c hm)]
    simp [hc]

/-- Parsing a two-positional-parameter template with clean name and
parameters reduces to the dispatch on that name with those two
positional parameters and no named parameter. -/
theorem parseTmplChars_two (nm p1 code : Str)
    (hbnm : braceFree nm = true) (hb1 : braceFree p1 = true)
    (hb2 : braceFree code = true)
    (hpnm : '|' ∉ nm) (hp1 : '|' ∉ p1) (hp2 : '|' ∉ code)
    (he1 : '=' ∉ p1) (he2 : '=' ∉ code)
    (hs1 : stripWs p1 = p1) (hs2 : stripWs code = code) :
    parseTmplChars ('\x7b' :: '\x7b' :: ((nm ++ '|' :: (p1 ++ '|' :: code)) ++ ['\x7d', '\x7d']))
      = interpTemplate (stripWs nm) [p1, code] [] := by
  have hb : braceFree (nm ++ '|' :: (p1 ++ '|' :: code)) = true := by
    unfold braceFree at *
    simp [List.all_append, List.all_cons, hbnm, hb1, hb2]
  unfold parseTmplChars
  rw [stripBraces_wrap _ hb, pySplit_append_sep '|' nm _ hpnm,
    pySplit_append_sep '|' p1 _ hp1, pySplit_no_sep '|' code hp2]
  show interpTemplate (stripWs nm) (collectParams [p1, code]).1
      (collectParams [p1, code]).2 = _
  have hcp : collectParams [p1, code] = ([p1, code], []) := by
    simp [collectParams, collectParamsAux, he1, he2, hs1, hs2]
  rw [hcp]

/-- C7 amended: for the borrowing and derivation templates (bor,
borrowed, der, derived) a language code in position 2 with no word in
position 3 produces the language-only fragment; for the inheritance
templates (inh, inherited) the same shape produces the empty fragment,
since their handler has no language-only form. -/
theorem borrow_derive_language_only (p1 code : Str)
    (hb1 : braceFree p1 = true) (hb2 : braceFree code = true)
    (hp1 : '|' ∉ p1) (hp2 : '|' ∉ code)
    (he1 : '=' ∉ p1) (he2 : '=' ∉ code)
    (hs1 : stripWs p1 = p1) (hs2 : stripWs code = code) :
    (∀ nm, (nm = str "bor" ∨ nm = str "borrowed" ∨ nm = str "der" ∨ nm = str "derived") →
      parseTmplChars ('\x7b' :: '\x7b' :: ((nm ++ '|' :: (p1 ++ '|' :: code)) ++ ['\x7d', '\x7d']))
        = str "*" ++ langGet code ++ str "*") ∧
    (∀ nm, (nm = str "inh" ∨ nm = str "inherited") →
      parseTmplChars ('\x7b' :: '\x7b' :: ((nm ++ '|' :: (p1 ++ '|' :: code)) ++ ['\x7d', '\x7d']))
        = []) := by
  constructor
  · intro nm hnm
    rcases hnm with h | h | h | h
    · subst h
      rw [parseTmplChars_two _ p1 code (by decide) hb1 hb2 (by decide) hp1 hp2
          he1 he2 hs1 hs2,
        show stripWs (str "bor") = str "bor" from by decide]
      unfold interpTemplate
      rw [if_neg (by decide), if_neg (by decide), if_neg (by decide),
        if_neg (by decide), if_pos (Or.inl rfl), if_neg (by simp),
        if_pos (by simp)]
      rfl
    · subst h
      rw [parseTmplChars_two _ p1 code (by decide) hb1 hb2 (by decide) hp1 hp2
          he1 he2 hs1 hs2,
        show stripWs (str "borrowed") = str "borrowed" from by decide]
      unfold interpTemplate
      rw [if_neg (by decide), if_neg (by decide), if_neg (by decide),
        if_neg (by decide), if_pos (Or.inr rfl), if_neg (by simp),
        if_pos (by simp)]
      rfl
    · subst h
      rw [parseTmplChars_two _ p1 code (by decide) hb1 hb2 (by decide) hp1 hp2
          he1 he2 hs1 hs2,
        show stripWs (str "der") = str "der" from by decide]
      unfold interpTemplate
      rw [if_neg (by decide), if_neg (by decide), if_neg (by decide),
        if_neg (by decide), if_neg (by decide), if_pos (Or.inl rfl),
        if_neg (by simp), if_pos (by simp)]
      rfl
    · subst h
      rw [parseTmplChars_two _ p1 code (by decide) hb1 hb2 (by decide) hp1 hp2
          he1 he2 hs1 hs2,
        show stripWs (str "derived") = str "derived" from by decide]
      unfold interpTemplate
      rw [if_neg (by decide), if_neg (by decide), if_neg (by decide),
        if_neg (by decide), if_neg (by decide), if_pos (Or.inr rfl),
        if_neg (by simp), if_pos (by simp)]
      rfl
  · intro nm hnm
    rcases hnm with h | h
    · subst h
      rw [parseTmplChars_two _ p1 code (by decide) hb1 hb2 (by decide) hp1 hp2
          he1 he2 hs1 hs2,
        show stripWs (str "inh") = str "inh" from by decide]
      unfold interpTemplate
      rw [if_neg (by decide), if_neg (by decide), if_neg (by decide),
        if_neg (by decide), if_neg (by decide), if_neg (by decide),
        if_pos (Or.inl rfl), if_neg (by simp)]
    · subst h
      rw [parseTmplChars_two _ p1 code (by decide) hb1 hb2 (by decide) hp1 hp2
          he1 he2 hs1 hs2,
        show stripWs (str "inherited") = str "inherited" from by decide]
      unfold interpTemplate
      rw [if_neg (by decide), if_neg (by decide), if_neg (by decide),
        if_neg (by decide), if_neg (by decide), if_neg (by decide),
        if_pos (Or.inr rfl), if_neg (by simp)]

/-- C7 witness: with first parameter fr and language code la, the bor
template yields the language-only Latin fragment while inh yields the
empty fragment. -/
theorem borrow_derive_language_only_witness :
    braceFree (str "la") = true ∧
    parseTmplChars ('\x7b' :: '\x7b' ::
        ((str "bor" ++ '|' :: (str "fr" ++ '|' :: str "la")) ++ ['\x7d', '\x7d']))
      = str "*" ++ langGet (str "la") ++ str "*" ∧
    parseTmplChars ('\x7b' :: '\x7b' ::
        ((str "inh" ++ '|' :: (str "fr" ++ '|' :: str "la")) ++ ['\x7d', '\x7d']))
      = [] :=
  ⟨by decide,
    (borrow_derive_language_only (str "fr") (str "la") (by decide) (by decide)
      (by decide) (by decide) (by decide) (by decide) (by decide) (by decide)).1
      _ (Or.inl rfl),
    (borrow_derive_language_only (str "fr") (str "la") (by decide) (by decide)
      (by decide) (by decide) (by decide) (by decide) (by decide) (by decide)).2
      _ (Or.inl rfl)⟩

/-- Characters of a stripped list come from the original list. -/
theorem mem_pyStrip {p : Char → Bool} {s : Str} {c : Char}
    (h : c ∈ pyStrip p s) : c ∈ s := by
  unfold pyStrip dropEndWhile at h
  have h2 := List.mem_reverse.mp h
  have h3 := List.Sublist.mem h2 (List.dropWhile_sublist p)
  have h4 := List.mem_reverse.mp h3
  exact List.Sublist.mem h4 (List.dropWhile_sublist p)

/-- Characters of a split piece come from the split list. -/
theorem mem_pySplit {sep : Char} {l : Str} :
    ∀ {part : Str}, part ∈ pySplit sep l → ∀ {c : Char}, c ∈ part → c ∈ l := by
  induction l with
  | nil =>
    intro part hp c hc
    simp [pySplit] at hp
    subst hp
    simp at hc
  | cons d rest ih =>
    intro part hp c hc
    simp only [pySplit] at hp
    by_cases hd : d = sep
    · rw [if_pos hd] at hp
      rcases List.mem_cons.mp hp with h | h
      · subst h; simp at hc
      · exact List.mem_cons_of_mem d (ih h hc)
    · rw [if_neg hd] at hp
      cases hr : pySplit sep rest with
      | nil =>
        rw [hr] at hp
        simp at hp
        subst hp
        simp at hc
        subst hc
        exact List.mem_cons_self _ _
      | cons h0 t0 =>
        rw [hr] at hp
        rcases List.mem_cons.mp hp with h | h
        · subst h
          rcases List.mem_cons.mp hc with h | h
          · subst h; exact List.mem_cons_self _ _
          · exact List.mem_cons_of_mem d
              (ih (by rw [hr]; exact List.mem_cons_self h0 t0) h)
        · exact List.mem_cons_of_mem d
            (ih (by rw [hr]; exact List.mem_cons_of_mem h0 h) hc)

/-- Characters of the key part come from the parameter. -/
theorem mem_eqKey {p : Str} {c : Char} (h : c ∈ eqKey p) : c ∈ p :=
  List.Sublist.mem h (List.takeWhile_sublist _)

/-- Characters of the value part come from the parameter. -/
theorem mem_eqVal {p : Str} {c : Char} (h : c ∈ eqVal p) : c ∈ p :=
  List.Sublist.mem (List.Sublist.mem h (List.drop_sublist _ _))
    (List.dropWhile_sublist _)

/-- Brace-freedom transfers along character inclusion. -/
theorem braceFree_subset {a b : Str} (hsub : ∀ c ∈ a, c ∈ b)
    (hb : braceFree b = true) : braceFree a = true := by
  unfold braceFree at hb ⊢
  rw [List.all_eq_true] at hb ⊢
  exact fun c hc => hb c (hsub c hc)

/-- Brace-freedom of an appended pair. -/
theorem braceFree_append_intro {a b : Str} (ha : braceFree a = true)
    (hb : braceFree b = true) : braceFree (a ++ b) = true := by
  unfold braceFree at ha hb ⊢
  rw [List.all_append, ha, hb]
  rfl

/-- Brace-freedom splits over append. -/
theorem braceFree_append_iff {a b : Str} :
    braceFree (a ++ b) = true ↔ (braceFree a = true ∧ braceFree b = true) := by
  unfold braceFree
  rw [List.all_append, Bool.and_eq_true]

/-- A successful lookup returns a pair of the list. -/
theorem lookup_mem {d : List (Str × Str)} {k v : Str} (h : d.lookup k = some v) :
    (k, v) ∈ d := by
  induction d with
  | nil => simp [List.lookup] at h
  | cons kv rest ih =>
    obtain ⟨a, b⟩ := kv
    rw [lookup_cons] at h
    by_cases hk : k = a
    · rw [if_pos hk] at h
      injection h with h
      subst hk
      subst h
      exact List.mem_cons_self _ _
    · rw [if_neg hk] at h
      exact List.mem_cons_of_mem _ (ih h)

/-- A dict.get is brace-free when the values and the default are. -/
theorem braceFree_dget {d : List (Str × Str)} {k dflt : Str}
    (hd : ∀ kv ∈ d, braceFree kv.2 = true) (hdf : braceFree dflt = true) :
    braceFree (dget d k dflt) = true := by
  unfold dget
  cases hl : d.lookup k with
  | none => exact hdf
  | some v => exact hd (k, v) (lookup_mem hl)

/-- All display names of the language table are brace-free. -/
theorem braceFree_table : ∀ kv ∈ lang_names, braceFree kv.2 = true := by decide

/-- A language-table lookup of a brace-free code is brace-free. -/
theorem braceFree_langGet {code : Str} (h : braceFree code = true) :
    braceFree (langGet code) = true :=
  braceFree_dget braceFree_table h

/-- Indexing with a brace-free default into brace-free entries is
brace-free. -/
theorem braceFree_getD {l : List Str} (h : ∀ p ∈ l, braceFree p = true) :
    ∀ i : Nat, braceFree (l.getD i []) = true := by
  induction l with
  | nil => intro i; cases i <;> rfl
  | cons p rest ih =>
    intro i
    cases i with
    | zero => rw [List.getD_cons_zero]; exact h p (List.mem_cons_self _ _)
    | succ n =>
      rw [List.getD_cons_succ]
      exact ih (fun q hq => h q (List.mem_cons_of_mem _ hq)) n

/-- Overwriting insertion preserves brace-free values. -/
theorem dinsert_values {d : List (Str × Str)} {k v : Str}
    (hd : ∀ kv ∈ d, braceFree kv.2 = true) (hv : braceFree v = true) :
    ∀ kv ∈ dinsert d k v, braceFree kv.2 = true := by
  induction d with
  | nil =>
    intro kv hkv
    simp [dinsert] at hkv
    subst hkv
    exact hv
  | cons ab rest ih =>
    obtain ⟨a, b⟩ := ab
    intro kv hkv
    by_cases hk : a = k
    · rw [show dinsert ((a, b) :: rest) k v = (a, v) :: rest from by
        simp [dinsert, hk]] at hkv
      rcases List.mem_cons.mp hkv with h | h
      · subst h; exact hv
      · exact hd kv (List.mem_cons_of_mem _ h)
    · rw [show dinsert ((a, b) :: rest) k v = (a, b) :: dinsert rest k v from by
        simp [dinsert, hk]] at hkv
      rcases List.mem_cons.mp hkv with h | h
      · subst h; exact hd (a, b) (List.mem_cons_self _ _)
      · exact ih (fun q hq => hd q (List.mem_cons_of_mem _ hq)) kv h

/-- The collection loop keeps positional parameters and named values
brace-free when the parts and the accumulators are. -/
theorem collectParamsAux_braceFree (parts : List Str) (pos : List Str)
    (named : List (Str × Str))
    (hparts : ∀ p ∈ parts, braceFree p = true)
    (hpos : ∀ p ∈ pos, braceFree p = true)
    (hnamed : ∀ kv ∈ named, braceFree kv.2 = true) :
    (∀ p ∈ (collectParamsAux parts (pos, named)).1, braceFree p = true) ∧
    (∀ kv ∈ (collectParamsAux parts (pos, named)).2, braceFree kv.2 = true) := by
  induction parts generalizing pos named with
  | nil => exact ⟨hpos, hnamed⟩
  | cons part rest ih =>
    have hpart : braceFree part = true := hparts part (List.mem_cons_self _ _)
    have hrest : ∀ p ∈ rest, braceFree p = true :=
      fun p hp => hparts p (List.mem_cons_of_mem _ hp)
    by_cases hc : '=' ∈ part
    · rw [show collectParamsAux (part :: rest) (pos, named)
          = collectParamsAux rest
              (pos, dinsert named (stripWs (eqKey part)) (stripWs (eqVal part)))
        from by simp [collectParamsAux, hc]]
      exact ih _ _ hrest hpos
        (dinsert_values hnamed
          (braceFree_subset (fun c hcc => mem_eqVal (mem_pyStrip hcc)) hpart))
    · rw [show collectParamsAux (part :: rest) (pos, named)
          = collectParamsAux rest (pos ++ [stripWs part], named)
        from by simp [collectParamsAux, hc]]
      apply ih _ _ hrest ?_ hnamed
      intro p hp
      rcases List.mem_append.mp hp with h | h
      · exact hpos p h
      · simp at h
        subst h
        exact braceFree_subset (fun c hcc => mem_pyStrip hcc) hpart

/-- The interpreter emits a brace-free fragment whenever its positional
parameters and named values are brace-free. -/
theorem braceFree_interp (nm : Str) (pos : List Str) (named : List (Str × Str))
    (hpos : ∀ p ∈ pos, braceFree p = true)
    (hnamed : ∀ kv ∈ named, braceFree kv.2 = true) :
    braceFree (interpTemplate nm pos named) = true := by
  have hget : ∀ i : Nat, braceFree (pos.getD i []) = true := braceFree_getD hpos
  have hdget : ∀ k : Str, braceFree (dget named k []) = true :=
    fun k => braceFree_dget hnamed rfl
  delta interpTemplate
  by_cases h1 : nm = str "étyl"
  · rw [if_pos h1]
    cases pos with
    | nil => rfl
    | cons lang_code tail =>
      have hlang : braceFree (langGet lang_code) = true :=
        braceFree_langGet (hpos lang_code (List.mem_cons_self _ _))
      dsimp only
      repeat' split
      all_goals try simp only [braceFree_append_iff]
      all_goals repeat' apply And.intro
      all_goals
        first
        | rfl
        | decide
        | assumption
        | exact hget 0
        | exact hget 1
        | exact hget 2
        | exact hget 3
        | exact hdget (str "mot")
        | exact hdget (str "tr")
        | exact braceFree_langGet (hget 0)
        | exact braceFree_langGet (hget 1)
  · rw [if_neg h1]
    by_cases h2 : nm = str "polytonique"
    · rw [if_pos h2]
      cases pos with
      | nil => rfl
      | cons p0 tail =>
        have hword : braceFree (stripBrackets p0) = true :=
          braceFree_subset (fun c hcc => mem_pyStrip hcc)
            (hpos p0 (List.mem_cons_self _ _))
        dsimp only
        repeat' split
        all_goals try simp only [braceFree_append_iff]
        all_goals repeat' apply And.intro
        all_goals
          first
          | rfl
          | decide
          | assumption
          | exact hget 0
          | exact hget 1
          | exact hget 2
          | exact hget 3
          | exact hdget (str "mot")
          | exact hdget (str "tr")
          | exact braceFree_langGet (hget 0)
          | exact braceFree_langGet (hget 1)
    · rw [if_neg h2]
      by_cases h3 : nm = str "date"
      · rw [if_pos h3]; rfl
      · rw [if_neg h3]
        by_cases h4 : nm = str "R" ∨ nm = str "réf"
        · rw [if_pos h4]; rfl
        · rw [if_neg h4]
          by_cases h5 : nm = str "bor" ∨ nm = str "borrowed"
          · rw [if_pos h5]
            repeat' split
            all_goals try simp only [braceFree_append_iff]
            all_goals repeat' apply And.intro
            all_goals
              first
              | rfl
              | decide
              | assumption
              | exact hget 0
              | exact hget 1
              | exact hget 2
              | exact hget 3
              | exact hdget (str "mot")
              | exact hdget (str "tr")
              | exact braceFree_langGet (hget 0)
              | exact braceFree_langGet (hget 1)
          · rw [if_neg h5]
            by_cases h6 : nm = str "der" ∨ nm = str "derived"
            · rw [if_pos h6]
              repeat' split
              all_goals try simp only [braceFree_append_iff]
              all_goals repeat' apply And.intro
              all_goals
                first
                | rfl
                | decide
                | assumption
                | exact hget 0
                | exact hget 1
                | exact hget 2
                | exact hget 3
                | exact hdget (str "mot")
                | exact hdget (str "tr")
                | exact braceFree_langGet (hget 0)
                | exact braceFree_langGet (hget 1)
            · rw [if_neg h6]
              by_cases h7 : nm = str "inh" ∨ nm = str "inherited"
              · rw [if_pos h7]
                repeat' split
                all_goals try simp only [braceFree_append_iff]
                all_goals repeat' apply And.intro
                all_goals
                  first
                  | rfl
                  | decide
                  | assumption
                  | exact hget 0
                  | exact hget 1
                  | exact hget 2
                  | exact hget 3
                  | exact hdget (str "mot")
                  | exact hdget (str "tr")
                  | exact braceFree_langGet (hget 0)
                  | exact braceFree_langGet (hget 1)
              · rw [if_neg h7]
                by_cases h8 : nm = str "m" ∨ nm = str "mention" ∨ nm = str "l"
                    ∨ nm = str "link" ∨ nm = str "lien"
                · rw [if_pos h8]
                  dsimp only
                  repeat' split
                  all_goals try simp only [braceFree_append_iff]
                  all_goals repeat' apply And.intro
                  all_goals
                    first
                    | rfl
                    | decide
                    | assumption
                    | exact hget 0
                    | exact hget 1
                    | exact hget 2
                    | exact hget 3
                    | exact hdget (str "mot")
                    | exact hdget (str "tr")
                    | exact braceFree_langGet (hget 0)
                    | exact braceFree_langGet (hget 1)
                · rw [if_neg h8]
                  by_cases h9 : nm = str "cog" ∨ nm = str "cognate"
                  · rw [if_pos h9]
                    repeat' split
                    all_goals try simp only [braceFree_append_iff]
                    all_goals repeat' apply And.intro
                    all_goals
                      first
                      | rfl
                      | decide
                      | assumption
                      | exact hget 0
                      | exact hget 1
                      | exact hget 2
                      | exact hget 3
                      | exact hdget (str "mot")
                      | exact hdget (str "tr")
                      | exact braceFree_langGet (hget 0)
                      | exact braceFree_langGet (hget 1)
                  · rw [if_neg h9]; rfl

/-- The parsed fragment of a template with brace-free interior is
brace-free. -/
theorem braceFree_parseTmpl (body : Str) (h : braceFree body = true) :
    braceFree (parseTmplChars ('\x7b' :: '\x7b' :: (body ++ ['\x7d', '\x7d'])))
      = true := by
  unfold parseTmplChars
  rw [stripBraces_wrap body h]
  cases hps : pySplit '|' body with
  | nil => rfl
  | cons name rest =>
    have hparts : ∀ p ∈ rest, braceFree p = true := by
      intro p hp
      refine braceFree_subset (fun c hc => ?_) h
      exact mem_pySplit (by rw [hps]; exact List.mem_cons_of_mem _ hp) hc
    have hcoll := collectParamsAux_braceFree rest [] [] hparts
      (by intro p hp; simp at hp) (by intro kv hkv; simp at hkv)
    exact braceFree_interp _ _ _ hcoll.1 hcoll.2

/-- C10: a template whose inner content between the double-brace
delimiters contains no braces resolves to a fragment containing no
brace characters: the invariant making every resolution pass strictly
remove template delimiters. -/
theorem template_fragment_brace_free (body : Str) (h : braceFree body = true) :
    braceFree (parseTmplChars ('\x7b' :: '\x7b' :: (body ++ ['\x7d', '\x7d'])))
      = true :=
  braceFree_parseTmpl body h

/-- C10 witness: a concrete mention template with brace-free interior
yields a brace-free fragment. -/
theorem template_fragment_brace_free_witness :
    braceFree (str "l|en|x") = true ∧
    braceFree (parseTmplChars ('\x7b' :: '\x7b' :: (str "l|en|x" ++ ['\x7d', '\x7d'])))
      = true :=
  ⟨by decide, template_fragment_brace_free (str "l|en|x") (by decide)⟩

/-- A brace-free text contains no opening brace. -/
theorem braceFree_countLB {l : Str} (h : braceFree l = true) : countLB l = 0 := by
  unfold countLB
  rw [List.count_eq_zero]
  intro hmem
  have h2 := (List.all_eq_true.mp h) _ hmem
  simp at h2

/-- A successful body scan decomposes its input as the brace-free body
followed by the closing double brace and the remainder. -/
theorem scanBody_sound : ∀ {l b r : Str}, scanBody l = some (b, r) →
    l = b ++ '\x7d' :: '\x7d' :: r ∧ braceFree b = true := by
  intro l
  induction l with
  | nil => intro b r h; simp [scanBody] at h
  | cons c rest ih =>
    intro b r h
    simp only [scanBody] at h
    by_cases hc : c = '\x7b'
    · rw [if_pos hc] at h; simp at h
    · rw [if_neg hc] at h
      by_cases hd : c = '\x7d'
      · rw [if_pos hd] at h
        cases rest with
        | nil => simp at h
        | cons d rest2 =>
          dsimp only at h
          by_cases hdd : d = '\x7d'
          · rw [if_pos hdd] at h
            simp at h
            obtain ⟨hb, hr⟩ := h
            subst hb
            subst hr
            constructor
            · simp [hd, hdd]
            · rfl
          · rw [if_neg hdd] at h; simp at h
      · rw [if_neg hd] at h
        cases hs : scanBody rest with
        | none => rw [hs] at h; simp at h
        | some br =>
          obtain ⟨b0, r0⟩ := br
          rw [hs] at h
          simp at h
          obtain ⟨hb, hr⟩ := h
          subst hb
          subst hr
          have hih := ih hs
          constructor
          · rw [List.cons_append, ← hih.1]
          · unfold braceFree at hih ⊢
            rw [List.all_cons, hih.2]
            simp [hc, hd]

/-- A successful match decomposes its input as the unmatched text, the
opening double brace, the brace-free body, the closing double brace and
the remainder. -/
theorem findMatch_sound : ∀ {s p b r : Str}, findMatch s = some (p, b, r) →
    s = p ++ '\x7b' :: '\x7b' :: (b ++ '\x7d' :: '\x7d' :: r) ∧ braceFree b = true := by
  intro s
  induction s with
  | nil => intro p b r h; simp [findMatch] at h
  | cons c rest ih =>
    intro p b r h
    simp only [findMatch] at h
    by_cases hc : c = '\x7b'
    · rw [if_pos hc] at h
      cases rest with
      | nil => simp at h
      | cons d rest2 =>
        dsimp only at h
        by_cases hd : d = '\x7b'
        · rw [if_pos hd] at h
          cases hs : scanBody rest2 with
          | some br =>
            obtain ⟨b0, r0⟩ := br
            rw [hs] at h
            simp at h
            obtain ⟨hp, hb, hr⟩ := h
            subst hp
            subst hb
            subst hr
            have hsc := scanBody_sound hs
            subst hc
            subst hd
            exact ⟨by simp [hsc.1], hsc.2⟩
          | none =>
            rw [hs] at h
            cases hf : findMatch (d :: rest2) with
            | none => rw [hf] at h; simp at h
            | some pbr =>
              obtain ⟨p0, b0, r0⟩ := pbr
              rw [hf] at h
              simp at h
              obtain ⟨hp, hb, hr⟩ := h
              subst hp
              subst hb
              subst hr
              have hih := ih hf
              exact ⟨by rw [List.cons_append, ← hih.1], hih.2⟩
        · rw [if_neg hd] at h
          cases hf : findMatch (d :: rest2) with
          | none => rw [hf] at h; simp at h
          | some pbr =>
            obtain ⟨p0, b0, r0⟩ := pbr
            rw [hf] at h
            simp at h
            obtain ⟨hp, hb, hr⟩ := h
            subst hp
            subst hb
            subst hr
            have hih := ih hf
            exact ⟨by rw [List.cons_append, ← hih.1], hih.2⟩
    · rw [if_neg hc] at h
      cases hf : findMatch rest with
      | none => rw [hf] at h; simp at h
      | some pbr =>
        obtain ⟨p0, b0, r0⟩ := pbr
        rw [hf] at h
        simp at h
        obtain ⟨hp, hb, hr⟩ := h
        subst hp
        subst hb
        subst hr
        have hih := ih hf
        exact ⟨by rw [List.cons_append, ← hih.1], hih.2⟩

/-- The remainder of a match is shorter than the input by at least the
four delimiter characters. -/
theorem findMatch_rest_length {s p b r : Str} (h : findMatch s = some (p, b, r)) :
    r.length + 4 ≤ s.length := by
  have hs := (findMatch_sound h).1
  rw [hs]
  simp [List.length_append]
  omega

/-- One resolution pass with adequate fuel: it is the identity exactly
when there is no match, and every match removes two opening braces and
inserts none. -/
theorem resolveStep_count : ∀ fuel s, s.length ≤ fuel →
    (findMatch s = none → resolveStep fuel s = s) ∧
    (∀ p b r, findMatch s = some (p, b, r) →
      countLB (resolveStep fuel s) + 2 ≤ countLB s) := by
  intro fuel
  induction fuel with
  | zero =>
    intro s hs
    have hnil : s = [] := List.length_eq_zero.mp (Nat.le_zero.mp hs)
    subst hnil
    constructor
    · intro _; rfl
    · intro p b r h; simp [findMatch] at h
  | succ fuel ih =>
    intro s hs
    constructor
    · intro h
      simp [resolveStep, h]
    · intro p b r h
      rw [show resolveStep (fuel + 1) s
          = p ++ parseTmplChars ('\x7b' :: '\x7b' :: (b ++ '\x7d' :: '\x7d' :: []))
              ++ resolveStep fuel r
        from by simp [resolveStep, h]]
      have hsound := findMatch_sound h
      have hlen : r.length ≤ fuel := by
        have := findMatch_rest_length h
        omega
      have hfrag0 : countLB (parseTmplChars
          ('\x7b' :: '\x7b' :: (b ++ '\x7d' :: '\x7d' :: []))) = 0 :=
        braceFree_countLB (braceFree_parseTmpl b hsound.2)
      have hb0 : countLB b = 0 := braceFree_countLB hsound.2
      have happ : ∀ x y : Str, countLB (x ++ y) = countLB x + countLB y := by
        intro x y
        unfold countLB
        exact List.count_append _ _ _
      have hs_eq : countLB s = countLB p + countLB r + 2 := by
        rw [hsound.1, happ]
        unfold countLB
        rw [List.count_cons, List.count_cons, List.count_append,
          List.count_cons, List.count_cons]
        have hb0' : List.count '\x7b' b = 0 := hb0
        rw [hb0']
        simp [countLB]
        omega
      have hrle : countLB (resolveStep fuel r) ≤ countLB r := by
        have hr := ih r hlen
        cases hfr : findMatch r with
        | none => rw [hr.1 hfr]
        | some pbr =>
          obtain ⟨p2, b2, r2⟩ := pbr
          have := hr.2 p2 b2 r2 hfr
          omega
      rw [happ, happ, hfrag0]
      omega

/-- The resolution loop with fuel exceeding the opening-brace count
reaches a true fixpoint, in a number of changing passes at most half
the opening-brace count. -/
theorem resolveLoop_spec : ∀ n s, countLB s < n →
    resolveOnce ((resolveLoopAux n s).1) = (resolveLoopAux n s).1 ∧
    (resolveLoopAux n s).2 ≤ countLB s / 2 := by
  intro n
  induction n with
  | zero => intro s h; omega
  | succ n ih =>
    intro s h
    by_cases heq : resolveOnce s = s
    · rw [show resolveLoopAux (n + 1) s = (s, 0) from by
        simp [resolveLoopAux, heq]]
      exact ⟨heq, Nat.zero_le _⟩
    · have hstep : countLB (resolveOnce s) + 2 ≤ countLB s := by
        cases hf : findMatch s with
        | none => exact absurd ((resolveStep_count s.length s le_rfl).1 hf) heq
        | some pbr =>
          obtain ⟨p, b, r⟩ := pbr
          exact (resolveStep_count s.length s le_rfl).2 p b r hf
      rw [show resolveLoopAux (n + 1) s
          = ((resolveLoopAux n (resolveOnce s)).1,
              (resolveLoopAux n (resolveOnce s)).2 + 1) from by
        simp [resolveLoopAux, heq]]
      have hih := ih (resolveOnce s) (by omega)
      exact ⟨hih.1, by omega⟩

/-- C1 amended: the fixpoint resolution loop always terminates: the
text it returns is a true fixpoint of the resolution pass, and the
number of changing passes is at most half the number of opening braces
of the input (each changing pass removes at least two).  The bound by
maximum template nesting depth does not hold in general. -/
theorem resolver_terminates (s : String) :
    resolveOnce (resolveFixChars s.data) = resolveFixChars s.data ∧
    resolvePasses s ≤ countLB s.data / 2 := by
  have h := resolveLoop_spec (countLB s.data + 1) s.data (by omega)
  exact ⟨h.1, h.2⟩

/-- A scan stops exactly at the first stopping character. -/
theorem spanNot_concat (bad : Char → Bool) (a : Str) (x : Char) (r : Str)
    (ha : ∀ c ∈ a, bad c = false) (hx : bad x = true) :
    spanNot bad (a ++ x :: r) = (a, x :: r) := by
  induction a with
  | nil => simp [spanNot, hx]
  | cons c aa ih =>
    have hcf : bad c = false := ha c (List.mem_cons_self _ _)
    simp [spanNot, hcf, ih fun q hq => ha q (List.mem_cons_of_mem _ hq)]

/-- A link interior with nonempty clean target and display matches with
the target group present, producing the display. -/
theorem tryLink_with_target (t d r : Str) (ht : t ≠ []) (hd : d ≠ [])
    (htp : '|' ∉ t) (htb : ']' ∉ t) (hdb : ']' ∉ d) :
    tryLink (t ++ '|' :: (d ++ ']' :: ']' :: r)) = some (d, r) := by
  unfold tryLink
  rw [spanNot_concat _ t '|' _
    (fun c hc => by
      have h1 : ¬c = '|' := fun hcc => htp (hcc ▸ hc)
      have h2 : ¬c = ']' := fun hcc => htb (hcc ▸ hc)
      simp [h1, h2])
    (by simp)]
  dsimp only
  rw [if_pos rfl, if_neg ht,
    spanNot_concat _ d ']' _
      (fun c hc => by
        have h2 : ¬c = ']' := fun hcc => hdb (hcc ▸ hc)
        simp [h2])
      (by simp)]
  dsimp only
  rw [if_pos ⟨rfl, rfl⟩, if_neg hd]

/-- A link interior with a nonempty clean target and no pipe matches
with the target group absent, producing the target. -/
theorem tryLink_no_target (t r : Str) (ht : t ≠ [])
    (htp : '|' ∉ t) (htb : ']' ∉ t) :
    tryLink (t ++ ']' :: ']' :: r) = some (t, r) := by
  unfold tryLink
  rw [spanNot_concat _ t ']' _
    (fun c hc => by
      have h1 : ¬c = '|' := fun hcc => htp (hcc ▸ hc)
      have h2 : ¬c = ']' := fun hcc => htb (hcc ▸ hc)
      simp [h1, h2])
    (by simp)]
  dsimp only
  rw [spanNot_concat _ t ']' _
    (fun c hc => by
      have h2 : ¬c = ']' := fun hcc => htb (hcc ▸ hc)
      simp [h2])
    (by simp)]
  dsimp only
  simp [ht]

/-- The flattening scan on an exhausted text. -/
theorem linkAux_nil (fuel : Nat) : linkAux fuel [] = [] := by
  cases fuel <;> rfl

/-- The flattening scan at a matched link. -/
theorem linkAux_link (fuel : Nat) (rest₂ : Str) (dr : Str × Str)
    (h : tryLink rest₂ = some dr) :
    linkAux (fuel + 1) ('[' :: '[' :: rest₂) = dr.1 ++ linkAux fuel dr.2 := by
  simp [linkAux, h]

/-- C9 amended: with nonempty target and display, a link of the shape
target-pipe-display flattens to the display and a bare-target link
flattens to the target; with an empty display part the pattern instead
falls back to the no-target reading and keeps target and pipe. -/
theorem link_flatten_shapes (t d : Str) (ht : t ≠ []) (hd : d ≠ [])
    (htp : '|' ∉ t) (htb : ']' ∉ t) (hdb : ']' ∉ d) :
    flattenLinksChars ('[' :: '[' :: (t ++ '|' :: (d ++ [']', ']']))) = d ∧
    flattenLinksChars ('[' :: '[' :: (t ++ [']', ']'])) = t := by
  constructor
  · show linkAux ((t ++ '|' :: (d ++ [']', ']'])).length + 1 + 1)
      ('[' :: '[' :: (t ++ '|' :: (d ++ [']', ']']))) = d
    rw [linkAux_link _ _ (d, []) (tryLink_with_target t d [] ht hd htp htb hdb),
      linkAux_nil, List.append_nil]
  · show linkAux ((t ++ [']', ']']).length + 1 + 1)
      ('[' :: '[' :: (t ++ [']', ']'])) = t
    rw [linkAux_link _ _ (t, []) (tryLink_no_target t [] ht htp htb),
      linkAux_nil, List.append_nil]

/-- C9 witness: the documented link examples flatten to their display
text. -/
theorem link_flatten_shapes_witness :
    flattenLinksChars ('[' :: '[' :: (str "chaos" ++ '|' :: (str "Chaos" ++ [']', ']'])))
      = str "Chaos" ∧
    flattenLinksChars ('[' :: '[' :: (str "chaos" ++ [']', ']'])) = str "chaos" :=
  link_flatten_shapes (str "chaos") (str "Chaos") (by decide) (by decide)
    (by decide) (by decide) (by decide)

/-- Head characters of a literal prefix agree. -/
theorem isPrefixOf_head_eq {x c : Char} {xs rest : Str}
    (h : (x :: xs).isPrefixOf (c :: rest) = true) :
    x = c ∧ xs.isPrefixOf rest = true := by
  rw [show List.isPrefixOf (x :: xs) (c :: rest) = ((x == c) && xs.isPrefixOf rest)
    from rfl, Bool.and_eq_true, beq_iff_eq] at h
  exact h

/-- Characters of a matched literal occur in the text. -/
theorem mem_of_isPrefixOf {w l : Str} (h : w.isPrefixOf l = true) :
    ∀ c ∈ w, c ∈ l := by
  induction w generalizing l with
  | nil => intro c hc; simp at hc
  | cons x xs ih =>
    intro c hc
    cases l with
    | nil => simp [List.isPrefixOf] at h
    | cons y ys =>
      obtain ⟨hx, hrest⟩ := isPrefixOf_head_eq h
      rcases List.mem_cons.mp hc with h1 | h1
      · subst h1
        subst hx
        exact List.mem_cons_self _ _
      · exact List.mem_cons_of_mem _ (ih hrest c h1)

/-- Characters of an end-stripped list come from the original list. -/
theorem mem_dropEndWhile {p : Char → Bool} {s : Str} {c : Char}
    (h : c ∈ dropEndWhile p s) : c ∈ s := by
  unfold dropEndWhile at h
  exact List.mem_reverse.mp
    (List.Sublist.mem (List.mem_reverse.mp h) (List.dropWhile_sublist p))

/-- Quote removal is the identity on quote-free text. -/
theorem quoteAux_id : ∀ fuel (s : Str), '\'' ∉ s → quoteAux fuel s = s := by
  intro fuel
  induction fuel with
  | zero => intro s _; rfl
  | succ fuel ih =>
    intro s h
    cases s with
    | nil => rfl
    | cons c rest =>
      have hc : ¬c = '\'' := fun hcc => h (hcc ▸ List.mem_cons_self _ _)
      simp only [quoteAux]
      rw [if_neg hc, ih rest fun hm => h (List.mem_cons_of_mem _ hm)]

/-- Reference-span removal is the identity on text without a less-than
sign. -/
theorem refSpanAux_id : ∀ fuel (s : Str), '<' ∉ s → refSpanAux fuel s = s := by
  intro fuel
  induction fuel with
  | zero => intro s _; rfl
  | succ fuel ih =>
    intro s h
    cases s with
    | nil => rfl
    | cons c rest =>
      have htrig : ¬(str "<ref").isPrefixOf (c :: rest) = true :=
        fun htr => h (mem_of_isPrefixOf htr '<' (by decide))
      simp only [refSpanAux]
      rw [if_neg htrig, ih rest fun hm => h (List.mem_cons_of_mem _ hm)]

/-- Self-closing-tag removal is the identity on text without a
less-than sign. -/
theorem selfCloseAux_id : ∀ fuel (s : Str), '<' ∉ s → selfCloseAux fuel s = s := by
  intro fuel
  induction fuel with
  | zero => intro s _; rfl
  | succ fuel ih =>
    intro s h
    cases s with
    | nil => rfl
    | cons c rest =>
      have htrig : ¬(str "<ref").isPrefixOf (c :: rest) = true :=
        fun htr => h (mem_of_isPrefixOf htr '<' (by decide))
      simp only [selfCloseAux]
      rw [if_neg htrig, ih rest fun hm => h (List.mem_cons_of_mem _ hm)]

/-- Tag removal is the identity on text without a less-than sign. -/
theorem tagAux_id : ∀ fuel (s : Str), '<' ∉ s → tagAux fuel s = s := by
  intro fuel
  induction fuel with
  | zero => intro s _; rfl
  | succ fuel ih =>
    intro s h
    cases s with
    | nil => rfl
    | cons c rest =>
      have hc : ¬c = '<' := fun hcc => h (hcc ▸ List.mem_cons_self _ _)
      simp only [tagAux]
      rw [if_neg hc, ih rest fun hm => h (List.mem_cons_of_mem _ hm)]

/-- Bounded-literal substitution is the identity when some character of
the literal does not occur in the text. -/
theorem litBoundAux_id (lit repl : Str) (x : Char) (hx : x ∈ lit) :
    ∀ fuel prev (s : Str), x ∉ s → litBoundAux lit repl fuel prev s = s := by
  intro fuel
  induction fuel with
  | zero => intro prev s _; rfl
  | succ fuel ih =>
    intro prev s h
    cases s with
    | nil => rfl
    | cons c rest =>
      have htrig : ¬(lit.isPrefixOf (c :: rest) = true ∧ prevOk prev = true
          ∧ nextOk ((c :: rest).drop lit.length) = true) :=
        fun htr => h (mem_of_isPrefixOf htr.1 x hx)
      simp only [litBoundAux]
      rw [if_neg htrig, ih (some c) rest fun hm => h (List.mem_cons_of_mem _ hm)]

/-- Boilerplate removal is the identity when the boilerplate phrase
does not occur. -/
theorem displacedAux_id : ∀ fuel (s : Str),
    containsSub (str "Displaced native") s = false → displacedAux fuel s = s := by
  intro fuel
  induction fuel with
  | zero => intro s _; rfl
  | succ fuel ih =>
    intro s h
    cases s with
    | nil => rfl
    | cons c rest =>
      unfold containsSub at h
      rw [Bool.or_eq_false_iff] at h
      simp only [displacedAux]
      rw [if_neg (by simp [h.1]), ih rest h.2]

/-- Colon removal is the identity on colon-free text. -/
theorem colonRule_id {s : Str} (h : ':' ∉ s) : colonRule s = s := by
  cases s with
  | nil => rfl
  | cons c rest =>
    have hc : ¬c = ':' := fun hcc => h (hcc ▸ List.mem_cons_self c rest)
    unfold colonRule
    dsimp only
    rw [if_neg hc]

/-- Empty-parenthesis removal is the identity on text without an
opening parenthesis. -/
theorem parensAux_id : ∀ fuel (s : Str), '(' ∉ s → parensAux fuel s = s := by
  intro fuel
  induction fuel with
  | zero => intro s _; rfl
  | succ fuel ih =>
    intro s h
    cases s with
    | nil => rfl
    | cons c rest =>
      have hc : ¬c = '(' := fun hcc => h (hcc ▸ List.mem_cons_self _ _)
      simp only [parensAux]
      rw [if_neg hc, ih rest fun hm => h (List.mem_cons_of_mem _ hm)]

/-- Doubled-comma collapse is the identity on comma-free text. -/
theorem commaAux_id : ∀ fuel (s : Str), ',' ∉ s → commaAux fuel s = s := by
  intro fuel
  induction fuel with
  | zero => intro s _; rfl
  | succ fuel ih =>
    intro s h
    cases s with
    | nil => rfl
    | cons c rest =>
      have hc : ¬c = ',' := fun hcc => h (hcc ▸ List.mem_cons_self _ _)
      simp only [commaAux]
      rw [if_neg hc, ih rest fun hm => h (List.mem_cons_of_mem _ hm)]

/-- Trailing-punctuation removal is the identity on text without a
comma or semicolon. -/
theorem trailingRule_id {s : Str} (hcom : ',' ∉ s) (hsem : ';' ∉ s) :
    trailingRule s = s := by
  unfold trailingRule
  dsimp only
  cases hg : (dropEndWhile isWsChar s).getLast? with
  | none => rfl
  | some c =>
    have hc : c ∈ s := mem_dropEndWhile (List.mem_of_mem_getLast? hg)
    dsimp only
    rw [if_neg]
    intro hcs
    rcases hcs with h | h
    · exact hcom (h ▸ hc)
    · exact hsem (h ▸ hc)

/-- Squeezing never lengthens. -/
theorem squeeze_length_le : ∀ t : Str, (squeeze t).length ≤ t.length := by
  intro t
  induction t with
  | nil => exact Nat.le_refl _
  | cons c rest ih =>
    cases rest with
    | nil => exact Nat.le_refl _
    | cons d r2 =>
      by_cases h : c = ' ' ∧ d = ' '
      · rw [show squeeze (c :: d :: r2) = squeeze (d :: r2) from by simp [squeeze, h]]
        exact Nat.le_succ_of_le ih
      · rw [show squeeze (c :: d :: r2) = c :: squeeze (d :: r2) from by
          simp [squeeze, h]]
        exact Nat.succ_le_succ ih

/-- A fixed point of dropWhile has a head failing the test. -/
theorem dropWhile_head_false {p : Char → Bool} {c : Char} {rest : Str}
    (h : List.dropWhile p (c :: rest) = c :: rest) : p c = false := by
  cases hp : p c
  · rfl
  · rw [List.dropWhile_cons_of_pos hp] at h
    have := List.Sublist.length_le (List.dropWhile_sublist p (l := rest))
    rw [h] at this
    simp at this

/-- dropWhile is idempotent. -/
theorem dropWhile_dropWhile (p : Char → Bool) :
    ∀ l : Str, List.dropWhile p (List.dropWhile p l) = List.dropWhile p l := by
  intro l
  induction l with
  | nil => rfl
  | cons c rest ih =>
    cases hp : p c
    · rw [List.dropWhile_cons_of_neg (by simp [hp]),
        List.dropWhile_cons_of_neg (by simp [hp])]
    · rw [List.dropWhile_cons_of_pos hp]
      exact ih

/-- dropEndWhile is idempotent. -/
theorem dropEnd_dropEnd (p : Char → Bool) (s : Str) :
    dropEndWhile p (dropEndWhile p s) = dropEndWhile p s := by
  unfold dropEndWhile
  rw [List.reverse_reverse, dropWhile_dropWhile]

/-- The end-stripped list together with the reversed stripped run
rebuilds the list. -/
theorem dropEnd_decomp (p : Char → Bool) (v : Str) :
    dropEndWhile p v ++ (v.reverse.takeWhile p).reverse = v := by
  unfold dropEndWhile
  rw [← List.reverse_append, List.takeWhile_append_dropWhile, List.reverse_reverse]

/-- A fixed point of stripWs is a fixed point of both directional
strips. -/
theorem stripWs_fix_parts {t : Str} (h : stripWs t = t) :
    List.dropWhile isWsChar t = t ∧ dropEndWhile isWsChar t = t := by
  unfold stripWs pyStrip at h
  have h1 : (List.dropWhile isWsChar t).length ≤ t.length :=
    List.Sublist.length_le (List.dropWhile_sublist _)
  have h2 : (dropEndWhile isWsChar (List.dropWhile isWsChar t)).length
      ≤ (List.dropWhile isWsChar t).length := by
    unfold dropEndWhile
    have := List.Sublist.length_le
      (List.dropWhile_sublist (l := (List.dropWhile isWsChar t).reverse) isWsChar)
    simpa using this
  rw [h] at h2
  have hlen : (List.dropWhile isWsChar t).length = t.length := Nat.le_antisymm h1 h2
  have hdw : List.dropWhile isWsChar t = t :=
    List.Sublist.eq_of_length (List.dropWhile_sublist _) hlen
  rw [hdw] at h
  exact ⟨hdw, h⟩

/-- A fixed point of dropWhile stays one after end-stripping. -/
theorem dropWhile_dropEnd_fix {p : Char → Bool} {v : Str}
    (h : List.dropWhile p v = v) :
    List.dropWhile p (dropEndWhile p v) = dropEndWhile p v := by
  cases hw : dropEndWhile p v with
  | nil => rfl
  | cons x t =>
    have hd := dropEnd_decomp p v
    rw [hw] at hd
    rw [← hd, List.cons_append] at h
    have hx : p x = false := dropWhile_head_false h
    rw [List.dropWhile_cons_of_neg (by simp [hx])]

/-- stripWs is idempotent. -/
theorem stripWs_idem (u : Str) : stripWs (stripWs u) = stripWs u := by
  have hdw : List.dropWhile isWsChar (stripWs u) = stripWs u :=
    dropWhile_dropEnd_fix (dropWhile_dropWhile _ u)
  show dropEndWhile isWsChar (List.dropWhile isWsChar (stripWs u)) = stripWs u
  rw [hdw]
  exact dropEnd_dropEnd isWsChar (List.dropWhile isWsChar u)

/-- mapWs is the identity when the only whitespace is plain spaces. -/
theorem mapWs_fix {t : Str} (h : ∀ c ∈ t, isWsChar c = true → c = ' ') :
    mapWs t = t := by
  induction t with
  | nil => rfl
  | cons c rest ih =>
    unfold mapWs
    rw [List.map_cons]
    have hrest : mapWs rest = rest :=
      ih fun d hd => h d (List.mem_cons_of_mem _ hd)
    rw [show List.map (fun c => if isWsChar c then ' ' else c) rest = rest
      from hrest]
    cases hw : isWsChar c
    · simp
    · rw [h c (List.mem_cons_self _ _) hw]
      simp

/-- Characters of a mapped text: whitespace became plain space. -/
theorem mapWs_ws_char {s : Str} : ∀ c ∈ mapWs s, isWsChar c = true → c = ' ' := by
  intro c hc hw
  rcases List.mem_map.mp hc with ⟨a, _, ha⟩
  by_cases hws : isWsChar a = true
  · rw [← ha, if_pos hws]
  · rw [← ha, if_neg hws] at hw
    exact absurd hw hws

/-- Characters of a squeezed text come from the original text. -/
theorem mem_squeeze : ∀ {t : Str} {c : Char}, c ∈ squeeze t → c ∈ t := by
  intro t
  induction t with
  | nil => intro c hc; simp [squeeze] at hc
  | cons c0 rest ih =>
    intro c hc
    cases rest with
    | nil => exact hc
    | cons d r2 =>
      by_cases h : c0 = ' ' ∧ d = ' '
      · rw [show squeeze (c0 :: d :: r2) = squeeze (d :: r2) from by
          simp [squeeze, h]] at hc
        exact List.mem_cons_of_mem _ (ih hc)
      · rw [show squeeze (c0 :: d :: r2) = c0 :: squeeze (d :: r2) from by
          simp [squeeze, h]] at hc
        rcases List.mem_cons.mp hc with h1 | h1
        · exact h1 ▸ List.mem_cons_self _ _
        · exact List.mem_cons_of_mem _ (ih h1)

/-- Squeezing preserves the head. -/
theorem squeeze_head : ∀ t : Str, (squeeze t).head? = t.head? := by
  intro t
  induction t with
  | nil => rfl
  | cons c rest ih =>
    cases rest with
    | nil => rfl
    | cons d r2 =>
      by_cases h : c = ' ' ∧ d = ' '
      · rw [show squeeze (c :: d :: r2) = squeeze (d :: r2) from by simp [squeeze, h],
          ih]
        simp [h.1, h.2]
      · rw [show squeeze (c :: d :: r2) = c :: squeeze (d :: r2) from by
          simp [squeeze, h]]
        rfl

/-- Squeezing is idempotent. -/
theorem squeeze_idem : ∀ t : Str, squeeze (squeeze t) = squeeze t := by
  intro t
  induction t with
  | nil => rfl
  | cons c rest ih =>
    cases rest with
    | nil => rfl
    | cons d r2 =>
      by_cases h : c = ' ' ∧ d = ' '
      · rw [show squeeze (c :: d :: r2) = squeeze (d :: r2) from by simp [squeeze, h]]
        exact ih
      · rw [show squeeze (c :: d :: r2) = c :: squeeze (d :: r2) from by
          simp [squeeze, h]]
        cases hw : squeeze (d :: r2) with
        | nil => rfl
        | cons e w2 =>
          have he : e = d := by
            have hh := squeeze_head (d :: r2)
            rw [hw] at hh
            simpa using hh
          have hnd : ¬(c = ' ' ∧ e = ' ') := by rw [he]; exact h
          rw [show squeeze (c :: e :: w2) = c :: squeeze (e :: w2) from by
            simp [squeeze, hnd], ← hw, ih, hw]

/-- A fixed point of squeeze has a fixed tail. -/
theorem squeeze_fix_tail {c : Char} {rest : Str}
    (h : squeeze (c :: rest) = c :: rest) : squeeze rest = rest := by
  cases rest with
  | nil => rfl
  | cons d r2 =>
    by_cases hsp : c = ' ' ∧ d = ' '
    · rw [show squeeze (c :: d :: r2) = squeeze (d :: r2) from by
        simp [squeeze, hsp]] at h
      have := squeeze_length_le (d :: r2)
      rw [h] at this
      simp at this
    · rw [show squeeze (c :: d :: r2) = c :: squeeze (d :: r2) from by
        simp [squeeze, hsp]] at h
      injection h

/-- A fixed point of squeeze stays one after dropWhile. -/
theorem squeeze_fix_dropWhile (p : Char → Bool) :
    ∀ {v : Str}, squeeze v = v → squeeze (List.dropWhile p v) = List.dropWhile p v := by
  intro v
  induction v with
  | nil => intro _; rfl
  | cons c rest ih =>
    intro h
    cases hp : p c
    · rw [List.dropWhile_cons_of_neg (by simp [hp])]
      exact h
    · rw [List.dropWhile_cons_of_pos hp]
      exact ih (squeeze_fix_tail h)

/-- A fixed point of squeeze has fixed prefixes. -/
theorem squeeze_fix_prefix (b : Str) :
    ∀ a : Str, squeeze (a ++ b) = a ++ b → squeeze a = a := by
  intro a
  induction a with
  | nil => intro _; rfl
  | cons x a' ih =>
    intro h
    cases a' with
    | nil => rfl
    | cons y a2 =>
      simp only [List.cons_append] at h
      by_cases hsp : x = ' ' ∧ y = ' '
      · rw [show squeeze (x :: y :: (a2 ++ b)) = squeeze (y :: (a2 ++ b)) from by
          simp [squeeze, hsp]] at h
        have := squeeze_length_le (y :: (a2 ++ b))
        rw [h] at this
        simp at this
      · rw [show squeeze (x :: y :: (a2 ++ b)) = x :: squeeze (y :: (a2 ++ b))
          from by simp [squeeze, hsp]] at h
        have h2 : squeeze (y :: (a2 ++ b)) = y :: (a2 ++ b) := by injection h
        have h3 : squeeze (y :: a2) = y :: a2 := ih h2
        rw [show squeeze (x :: y :: a2) = x :: squeeze (y :: a2) from by
          simp [squeeze, hsp], h3]

/-- A fixed point of squeeze stays one after end-stripping. -/
theorem squeeze_fix_dropEnd (p : Char → Bool) {v : Str} (h : squeeze v = v) :
    squeeze (dropEndWhile p v) = dropEndWhile p v := by
  apply squeeze_fix_prefix ((v.reverse.takeWhile p).reverse)
  rw [dropEnd_decomp]
  exact h

/-- The three rule components fix wsNorm. -/
theorem wsNorm_fix_of {t : Str} (h1 : mapWs t = t) (h2 : squeeze t = t)
    (h3 : stripWs t = t) : wsNorm t = t := by
  unfold wsNorm
  rw [h1, h2]
  exact h3

/-- The whitespace-normalized text maps to itself. -/
theorem mapWs_wsNorm (s : Str) : mapWs (wsNorm s) = wsNorm s := by
  apply mapWs_fix
  intro c hc hw
  exact mapWs_ws_char c (mem_squeeze (mem_pyStrip hc)) hw

/-- The whitespace-normalized text squeezes to itself. -/
theorem squeeze_wsNorm (s : Str) : squeeze (wsNorm s) = wsNorm s := by
  unfold wsNorm stripWs pyStrip
  exact squeeze_fix_dropEnd _ (squeeze_fix_dropWhile _ (squeeze_idem _))

/-- The whitespace-normalized text strips to itself. -/
theorem stripWs_wsNorm (s : Str) : stripWs (wsNorm s) = wsNorm s :=
  stripWs_idem _

/-- Whitespace normalization is idempotent. -/
theorem wsNorm_idem (s : Str) : wsNorm (wsNorm s) = wsNorm s :=
  wsNorm_fix_of (mapWs_wsNorm s) (squeeze_wsNorm s) (stripWs_wsNorm s)

/-- Value of a character built from a small code point. -/
theorem char_ofNat_toNat {n : Nat} (h : n < 55296) : (Char.ofNat n).toNat = n := by
  have hv : n.isValidChar := Or.inl h
  simp [Char.ofNat, hv, Char.ofNatAux, Char.toNat, UInt32.toNat, BitVec.toNat_ofNatLt]

/-- Uppercasing either fixes the character or yields an ASCII capital. -/
theorem pyUpper_cases (c : Char) :
    pyUpperChar c = c ∨
    (65 ≤ (pyUpperChar c).toNat ∧ (pyUpperChar c).toNat ≤ 90) := by
  unfold pyUpperChar
  by_cases h : 97 ≤ c.toNat ∧ c.toNat ≤ 122
  · rw [if_pos h]
    right
    rw [char_ofNat_toNat (by omega)]
    omega
  · rw [if_neg h]
    left
    rfl

/-- Uppercasing is idempotent. -/
theorem pyUpper_idem (c : Char) : pyUpperChar (pyUpperChar c) = pyUpperChar c := by
  rcases pyUpper_cases c with hc | hc
  · rw [hc]; exact hc
  · have hno : ¬(97 ≤ (pyUpperChar c).toNat ∧ (pyUpperChar c).toNat ≤ 122) := by omega
    rw [show pyUpperChar (pyUpperChar c)
        = if 97 ≤ (pyUpperChar c).toNat ∧ (pyUpperChar c).toNat ≤ 122 then
            Char.ofNat ((pyUpperChar c).toNat - 32) else pyUpperChar c from rfl,
      if_neg hno]

/-- Capitalization is idempotent. -/
theorem capRule_idem (t : Str) : capRule (capRule t) = capRule t := by
  cases t with
  | nil => rfl
  | cons c rest =>
    show pyUpperChar (pyUpperChar c) :: rest = pyUpperChar c :: rest
    rw [pyUpper_idem]

/-- Characters with large code points are not whitespace. -/
theorem isWsChar_false_of_ge {x : Char} (h : 33 ≤ x.toNat) : isWsChar x = false := by
  unfold isWsChar
  have h1 : ¬x = ' ' := fun he => by rw [he] at h; exact absurd h (by decide)
  have h2 : ¬x = '\t' := fun he => by rw [he] at h; exact absurd h (by decide)
  have h3 : ¬x = '\n' := fun he => by rw [he] at h; exact absurd h (by decide)
  have h4 : ¬x = '\r' := fun he => by rw [he] at h; exact absurd h (by decide)
  have h5 : ¬x = '\x0b' := fun he => by rw [he] at h; exact absurd h (by decide)
  have h6 : ¬x = '\x0c' := fun he => by rw [he] at h; exact absurd h (by decide)
  simp [h1, h2, h3, h4, h5, h6]

/-- Uppercasing preserves non-whitespace. -/
theorem pyUpper_not_ws {c : Char} (h : isWsChar c = false) :
    isWsChar (pyUpperChar c) = false := by
  rcases pyUpper_cases c with hc | hc
  · rw [hc]; exact h
  · exact isWsChar_false_of_ge (by omega)

/-- Uppercasing never yields a plain space. -/
theorem pyUpper_ne_space {c : Char} (h : ¬c = ' ') : ¬pyUpperChar c = ' ' := by
  rcases pyUpper_cases c with hc | hc
  · rw [hc]; exact h
  · intro he
    rw [he] at hc
    exact absurd hc (by decide)

/-- A mapWs fixed point stays one after capitalization. -/
theorem mapWs_capRule {t : Str} (hm : mapWs t = t) :
    mapWs (capRule t) = capRule t := by
  cases t with
  | nil => rfl
  | cons h rest =>
    unfold mapWs at hm ⊢
    rw [List.map_cons] at hm
    have hrest : List.map (fun c => if isWsChar c then ' ' else c) rest = rest := by
      injection hm
    have hh : (if isWsChar h then ' ' else h) = h := by injection hm
    rw [show capRule (h :: rest) = pyUpperChar h :: rest from rfl, List.map_cons,
      hrest]
    rcases pyUpper_cases h with hc | hc
    · rw [hc, hh]
    · rw [if_neg (by rw [isWsChar_false_of_ge (by omega)]; simp)]

/-- A squeeze fixed point with non-whitespace head stays one after
capitalization. -/
theorem squeeze_capRule {t : Str} (hsq : squeeze t = t)
    (hdw : List.dropWhile isWsChar t = t) :
    squeeze (capRule t) = capRule t := by
  cases t with
  | nil => rfl
  | cons h rest =>
    have hph : isWsChar h = false := dropWhile_head_false hdw
    have hns : ¬h = ' ' := fun he => by rw [he] at hph; exact absurd hph (by decide)
    cases rest with
    | nil => rfl
    | cons d r2 =>
      have hnd : ¬(h = ' ' ∧ d = ' ') := fun hc => hns hc.1
      have htail : squeeze (d :: r2) = d :: r2 := by
        rw [show squeeze (h :: d :: r2) = h :: squeeze (d :: r2) from by
          simp [squeeze, hnd]] at hsq
        injection hsq
      have hnd2 : ¬(pyUpperChar h = ' ' ∧ d = ' ') :=
        fun hcc => (pyUpper_ne_space hns) hcc.1
      show squeeze (pyUpperChar h :: d :: r2) = pyUpperChar h :: d :: r2
      rw [show squeeze (pyUpperChar h :: d :: r2)
          = if pyUpperChar h = ' ' ∧ d = ' ' then squeeze (d :: r2)
            else pyUpperChar h :: squeeze (d :: r2) from rfl,
        if_neg hnd2, htail]

/-- A stripWs fixed point stays one after capitalization. -/
theorem stripWs_capRule {t : Str} (hst : stripWs t = t) :
    stripWs (capRule t) = capRule t := by
  obtain ⟨hdw, hde⟩ := stripWs_fix_parts hst
  cases t with
  | nil => rfl
  | cons h rest =>
    have hph : isWsChar h = false := dropWhile_head_false hdw
    have hpu : isWsChar (pyUpperChar h) = false := pyUpper_not_ws hph
    show stripWs (pyUpperChar h :: rest) = pyUpperChar h :: rest
    unfold stripWs pyStrip
    rw [List.dropWhile_cons_of_neg (by simp [hpu])]
    unfold dropEndWhile
    rw [show (pyUpperChar h :: rest).reverse = rest.reverse ++ [pyUpperChar h]
      from by simp]
    cases hr : rest.reverse with
    | nil =>
      rw [List.nil_append, List.dropWhile_cons_of_neg (by simp [hpu])]
      have : rest = [] := by
        rw [← List.reverse_eq_nil_iff]
        exact hr
      simp [this]
    | cons y ys =>
      have hrev : List.dropWhile isWsChar ((h :: rest).reverse) = (h :: rest).reverse := by
        unfold dropEndWhile at hde
        rw [← List.reverse_inj, List.reverse_reverse] at hde
        exact hde
      rw [show (h :: rest).reverse = rest.reverse ++ [h] from by simp, hr,
        List.cons_append] at hrev
      have hy : isWsChar y = false := dropWhile_head_false hrev
      rw [List.cons_append, List.dropWhile_cons_of_neg (by simp [hy])]
      rw [← List.cons_append, ← hr]
      simp

/-- Capitalizing a whitespace-normalized text leaves it normalized. -/
theorem wsNorm_capRule (s : Str) :
    wsNorm (capRule (wsNorm s)) = capRule (wsNorm s) :=
  wsNorm_fix_of (mapWs_capRule (mapWs_wsNorm s))
    (squeeze_capRule (squeeze_wsNorm s) (stripWs_fix_parts (stripWs_wsNorm s)).1)
    (stripWs_capRule (stripWs_wsNorm s))

/-- The empty pattern is a prefix of everything. -/
theorem nil_isPrefixOf (l : Str) : List.isPrefixOf [] l = true := by
  cases l with
  | nil => rfl
  | cons c r => rfl

/-- A prefix of a list is a prefix of any right extension. -/
theorem isPrefixOf_append {p a : Str} (b : Str)
    (h : p.isPrefixOf a = true) : p.isPrefixOf (a ++ b) = true := by
  induction p generalizing a with
  | nil => exact nil_isPrefixOf _
  | cons x xs ih =>
    cases a with
    | nil =>
      rw [show List.isPrefixOf (x :: xs) ([] : Str) = false from rfl] at h
      exact absurd h (by simp)
    | cons c rest =>
      obtain ⟨hx, hp⟩ := isPrefixOf_head_eq h
      rw [List.cons_append,
        show List.isPrefixOf (x :: xs) (c :: (rest ++ b))
          = ((x == c) && xs.isPrefixOf (rest ++ b)) from rfl,
        Bool.and_eq_true, beq_iff_eq]
      exact ⟨hx, ih hp⟩

/-- A prefix occurrence is a substring occurrence. -/
theorem isPrefixOf_containsSub {p s : Str} (h : p.isPrefixOf s = true) :
    containsSub p s = true := by
  cases s with
  | nil => exact h
  | cons c rest =>
    show (p.isPrefixOf (c :: rest) || containsSub p rest) = true
    rw [h]
    rfl

/-- A substring of a list is a substring of any right extension. -/
theorem containsSub_append_left {p a : Str} (b : Str)
    (h : containsSub p a = true) : containsSub p (a ++ b) = true := by
  induction a with
  | nil =>
    rw [List.nil_append]
    cases p with
    | nil => exact isPrefixOf_containsSub (nil_isPrefixOf b)
    | cons x xs =>
      have hp : (x :: xs).isPrefixOf ([] : Str) = true := h
      rw [show List.isPrefixOf (x :: xs) ([] : Str) = false from rfl] at hp
      exact absurd hp (by simp)
  | cons c rest ih =>
    rw [List.cons_append]
    have hh : (p.isPrefixOf (c :: rest) || containsSub p rest) = true := h
    rw [Bool.or_eq_true] at hh
    show (p.isPrefixOf (c :: (rest ++ b)) || containsSub p (rest ++ b)) = true
    rw [Bool.or_eq_true]
    rcases hh with h1 | h1
    · left
      have h2 := isPrefixOf_append b h1
      rw [List.cons_append] at h2
      exact h2
    · right
      exact ih h1

/-- A prefix match of a concatenated pattern puts the second half
somewhere inside the text. -/
theorem isPrefixOf_append_pat {a b s : Str}
    (h : (a ++ b).isPrefixOf s = true) : containsSub b s = true := by
  induction a generalizing s with
  | nil =>
    rw [List.nil_append] at h
    exact isPrefixOf_containsSub h
  | cons x a2 ih =>
    cases s with
    | nil =>
      rw [List.cons_append,
        show List.isPrefixOf (x :: (a2 ++ b)) ([] : Str) = false from rfl] at h
      exact absurd h (by simp)
    | cons c rest =>
      rw [List.cons_append] at h
      obtain ⟨_, hp⟩ := isPrefixOf_head_eq h
      have h2 := ih hp
      show (b.isPrefixOf (c :: rest) || containsSub b rest) = true
      rw [h2]
      simp

/-- An occurrence of a concatenated pattern gives an occurrence of its
second half. -/
theorem containsSub_append_pat {a b s : Str}
    (h : containsSub (a ++ b) s = true) : containsSub b s = true := by
  induction s with
  | nil => exact isPrefixOf_append_pat h
  | cons c rest ih =>
    have hh : ((a ++ b).isPrefixOf (c :: rest) || containsSub (a ++ b) rest)
        = true := h
    rw [Bool.or_eq_true] at hh
    rcases hh with h1 | h1
    · exact isPrefixOf_append_pat h1
    · have h2 := ih h1
      show (b.isPrefixOf (c :: rest) || containsSub b rest) = true
      rw [h2]
      simp

/-- A substring of the head-dropped text occurs in the whole text. -/
theorem containsSub_dropWhile {p : Str} {q : Char → Bool} :
    ∀ {t : Str}, containsSub p (t.dropWhile q) = true → containsSub p t = true := by
  intro t
  induction t with
  | nil => intro h; exact h
  | cons c rest ih =>
    intro h
    by_cases hq : q c = true
    · rw [List.dropWhile_cons_of_pos hq] at h
      have h2 := ih h
      show (p.isPrefixOf (c :: rest) || containsSub p rest) = true
      rw [h2]
      simp
    · rw [List.dropWhile_cons_of_neg (by simp [hq])] at h
      exact h

/-- A substring of the stripped text occurs in the original text. -/
theorem containsSub_stripWs {p t : Str}
    (h : containsSub p (stripWs t) = true) : containsSub p t = true := by
  have h2 : containsSub p (List.dropWhile isWsChar t) = true := by
    have hd := dropEnd_decomp isWsChar (List.dropWhile isWsChar t)
    rw [← hd]
    exact containsSub_append_left _ h
  exact containsSub_dropWhile h2

/-- A space-free prefix of the space-normalized text is a prefix of the
original text. -/
theorem isPrefixOf_mapWs {p : Str} (hp : ' ' ∉ p) :
    ∀ {t : Str}, p.isPrefixOf (mapWs t) = true → p.isPrefixOf t = true := by
  induction p with
  | nil => intro t _; exact nil_isPrefixOf t
  | cons x xs ih =>
    intro t h
    cases t with
    | nil =>
      rw [show mapWs [] = ([] : Str) from rfl,
        show List.isPrefixOf (x :: xs) ([] : Str) = false from rfl] at h
      exact absurd h (by simp)
    | cons c rest =>
      rw [show mapWs (c :: rest)
          = (if isWsChar c then ' ' else c) :: mapWs rest from rfl] at h
      obtain ⟨hx, hpre⟩ := isPrefixOf_head_eq h
      have hxs : ' ' ∉ xs := fun hm => hp (List.mem_cons_of_mem _ hm)
      have hxc : x = c := by
        by_cases hw : isWsChar c = true
        · rw [if_pos hw] at hx
          exact absurd (List.mem_cons.mpr (Or.inl hx.symm)) hp
        · rw [if_neg hw] at hx
          exact hx
      rw [show List.isPrefixOf (x :: xs) (c :: rest)
          = ((x == c) && xs.isPrefixOf rest) from rfl,
        Bool.and_eq_true, beq_iff_eq]
      exact ⟨hxc, ih hxs hpre⟩

/-- A space-free substring of the space-normalized text occurs in the
original text. -/
theorem containsSub_mapWs {p : Str} (hp : ' ' ∉ p) :
    ∀ {t : Str}, containsSub p (mapWs t) = true → containsSub p t = true := by
  intro t
  induction t with
  | nil => intro h; exact h
  | cons c rest ih =>
    intro h
    have hh : (p.isPrefixOf (mapWs (c :: rest))
        || containsSub p (mapWs rest)) = true := h
    rw [Bool.or_eq_true] at hh
    rcases hh with h1 | h1
    · exact isPrefixOf_containsSub (isPrefixOf_mapWs hp h1)
    · have h2 := ih h1
      show (p.isPrefixOf (c :: rest) || containsSub p rest) = true
      rw [h2]
      simp

/-- A space-free prefix of the squeezed text is a prefix of the original
text. -/
theorem squeeze_isPrefixOf : ∀ {t p : Str}, ' ' ∉ p →
    p.isPrefixOf (squeeze t) = true → p.isPrefixOf t = true := by
  intro t
  induction t with
  | nil => intro p _ h; exact h
  | cons c rest ih =>
    intro p hp h
    cases rest with
    | nil => exact h
    | cons d r2 =>
      by_cases hcd : c = ' ' ∧ d = ' '
      · rw [show squeeze (c :: d :: r2) = squeeze (d :: r2) from by
          simp [squeeze, hcd]] at h
        cases p with
        | nil => rfl
        | cons x xs =>
          have hsh : (squeeze (d :: r2)).head? = some d := by
            rw [squeeze_head]
            rfl
          cases hsq : squeeze (d :: r2) with
          | nil => rw [hsq] at hsh; exact absurd hsh (by simp)
          | cons y ys =>
            rw [hsq] at h hsh
            obtain ⟨hx, _⟩ := isPrefixOf_head_eq h
            have hyd : y = d := by
              simp at hsh
              exact hsh
            have hxsp : x = ' ' := by rw [hx, hyd, hcd.2]
            exact absurd (List.mem_cons.mpr (Or.inl hxsp.symm)) hp
      · rw [show squeeze (c :: d :: r2) = c :: squeeze (d :: r2) from by
          simp [squeeze, hcd]] at h
        cases p with
        | nil => rfl
        | cons x xs =>
          obtain ⟨hx, hpre⟩ := isPrefixOf_head_eq h
          have hxs : ' ' ∉ xs := fun hm => hp (List.mem_cons_of_mem _ hm)
          rw [show List.isPrefixOf (x :: xs) (c :: d :: r2)
              = ((x == c) && xs.isPrefixOf (d :: r2)) from rfl,
            Bool.and_eq_true, beq_iff_eq]
          exact ⟨hx, ih hxs hpre⟩

/-- A space-free substring of the squeezed text occurs in the original
text. -/
theorem containsSub_squeeze {p : Str} (hp : ' ' ∉ p) :
    ∀ {t : Str}, containsSub p (squeeze t) = true → containsSub p t = true := by
  intro t
  induction t with
  | nil => intro h; exact h
  | cons c rest ih =>
    intro h
    cases rest with
    | nil => exact h
    | cons d r2 =>
      by_cases hcd : c = ' ' ∧ d = ' '
      · rw [show squeeze (c :: d :: r2) = squeeze (d :: r2) from by
          simp [squeeze, hcd]] at h
        have h2 := ih h
        show (p.isPrefixOf (c :: d :: r2) || containsSub p (d :: r2)) = true
        rw [h2]
        simp
      · rw [show squeeze (c :: d :: r2) = c :: squeeze (d :: r2) from by
          simp [squeeze, hcd]] at h
        have hh : (p.isPrefixOf (c :: squeeze (d :: r2))
            || containsSub p (squeeze (d :: r2))) = true := h
        rw [Bool.or_eq_true] at hh
        rcases hh with h1 | h1
        · have hsq : p.isPrefixOf (squeeze (c :: d :: r2)) = true := by
            rw [show squeeze (c :: d :: r2) = c :: squeeze (d :: r2) from by
              simp [squeeze, hcd]]
            exact h1
          exact isPrefixOf_containsSub (squeeze_isPrefixOf hp hsq)
        · have h2 := ih h1
          show (p.isPrefixOf (c :: d :: r2) || containsSub p (d :: r2)) = true
          rw [h2]
          simp

/-- A space-free substring of the whitespace-normalized text occurs in
the original text. -/
theorem containsSub_wsNorm {p s : Str} (hp : ' ' ∉ p)
    (h : containsSub p (wsNorm s) = true) : containsSub p s = true :=
  containsSub_mapWs hp (containsSub_squeeze hp (containsSub_stripWs h))

/-- Characters of the whitespace-normalized text are the space or come
from the original text. -/
theorem mem_wsNorm {s : Str} {c : Char} (h : c ∈ wsNorm s) :
    c = ' ' ∨ c ∈ s := by
  have h1 : c ∈ squeeze (mapWs s) := mem_pyStrip h
  have h2 : c ∈ mapWs s := mem_squeeze h1
  obtain ⟨a, ha, hfa⟩ := List.mem_map.mp h2
  by_cases hw : isWsChar a = true
  · left
    rw [← hfa, if_pos hw]
  · right
    rw [← hfa, if_neg hw]
    exact ha

/-- A non-space character absent from the text is absent from its
whitespace normalization. -/
theorem not_mem_wsNorm {s : Str} {c : Char} (hc : ¬c = ' ') (h : c ∉ s) :
    c ∉ wsNorm s := fun hin => by
  rcases mem_wsNorm hin with he | he
  · exact hc he
  · exact h he

/-- Characters of the capitalized text come from the text or are ASCII
capitals. -/
theorem mem_capRule {t : Str} {c : Char} (h : c ∈ capRule t) :
    c ∈ t ∨ (65 ≤ c.toNat ∧ c.toNat ≤ 90) := by
  cases t with
  | nil => exact absurd h (by simp [capRule])
  | cons x rest =>
    rcases List.mem_cons.mp h with h1 | h1
    · rcases pyUpper_cases x with hc | hc
      · left
        rw [h1, hc]
        exact List.mem_cons_self _ _
      · right
        rw [h1]
        exact hc
    · left
      exact List.mem_cons_of_mem _ h1

/-- A substring whose first character is not an ASCII capital survives
capitalization backwards. -/
theorem containsSub_capRule {x : Char} {p t : Str}
    (hx : ¬(65 ≤ x.toNat ∧ x.toNat ≤ 90))
    (h : containsSub (x :: p) (capRule t) = true) :
    containsSub (x :: p) t = true := by
  cases t with
  | nil => exact h
  | cons c rest =>
    have hh : ((x :: p).isPrefixOf (pyUpperChar c :: rest)
        || containsSub (x :: p) rest) = true := h
    rw [Bool.or_eq_true] at hh
    rcases hh with h1 | h1
    · obtain ⟨hxc, hpre⟩ := isPrefixOf_head_eq h1
      rcases pyUpper_cases c with hc | hc
      · rw [hc] at hxc
        have hpf : (x :: p).isPrefixOf (c :: rest) = true := by
          rw [show List.isPrefixOf (x :: p) (c :: rest)
              = ((x == c) && p.isPrefixOf rest) from rfl,
            Bool.and_eq_true, beq_iff_eq]
          exact ⟨hxc, hpre⟩
        show ((x :: p).isPrefixOf (c :: rest) || containsSub (x :: p) rest) = true
        rw [hpf]
        simp
      · rw [hxc] at hx
        exact absurd hc hx
    · show ((x :: p).isPrefixOf (c :: rest) || containsSub (x :: p) rest) = true
      rw [h1]
      simp

/-- On text free of quotes, angle brackets, parentheses, colons, commas,
semicolons, hyphens and the boilerplate word, the scrubber reduces to
whitespace normalization followed by capitalization. -/
theorem scrub_plain {s : Str}
    (h1 : '\'' ∉ s) (h2 : '<' ∉ s) (h3 : '(' ∉ s) (h4 : ':' ∉ s)
    (h5 : ',' ∉ s) (h6 : ';' ∉ s) (h7 : '-' ∉ s)
    (h8 : containsSub (str "native") s = false) :
    scrubChars s = capRule (wsNorm s) := by
  have e1 : quoteRule s = s := quoteAux_id s.length s h1
  have e2 : refSpanRule s = s := refSpanAux_id s.length s h2
  have e3 : selfCloseRule s = s := selfCloseAux_id s.length s h2
  have e4 : tagRule s = s := tagAux_id s.length s h2
  have e5 : litBoundRule (str "la-lat") (str "Late Latin") s = s :=
    litBoundAux_id _ _ '-' (by decide) s.length none s h7
  have e6 : litBoundRule (str "la-med") (str "Medieval Latin") s = s :=
    litBoundAux_id _ _ '-' (by decide) s.length none s h7
  have e7 : litBoundRule (str "la-new") (str "New Latin") s = s :=
    litBoundAux_id _ _ '-' (by decide) s.length none s h7
  have hdn : containsSub (str "Displaced native") s = false := by
    cases hq : containsSub (str "Displaced native") s with
    | false => rfl
    | true =>
      have hq2 : containsSub (str "Displaced " ++ str "native") s = true := by
        rw [show str "Displaced " ++ str "native" = str "Displaced native"
          from by decide]
        exact hq
      have hq3 := containsSub_append_pat hq2
      rw [h8] at hq3
      exact absurd hq3 (by simp)
  have e8 : displacedRule s = s := displacedAux_id s.length s hdn
  have c3 : '(' ∉ wsNorm s := not_mem_wsNorm (by decide) h3
  have c4 : ':' ∉ wsNorm s := not_mem_wsNorm (by decide) h4
  have c5 : ',' ∉ wsNorm s := not_mem_wsNorm (by decide) h5
  have c6 : ';' ∉ wsNorm s := not_mem_wsNorm (by decide) h6
  have e9 : colonRule (wsNorm s) = wsNorm s := colonRule_id c4
  have e10 : parensRule (wsNorm s) = wsNorm s :=
    parensAux_id (wsNorm s).length (wsNorm s) c3
  have e11 : commaRule (wsNorm s) = wsNorm s :=
    commaAux_id (wsNorm s).length (wsNorm s) c5
  have e13 : trailingRule (wsNorm s) = wsNorm s := trailingRule_id c5 c6
  unfold scrubChars
  rw [e1, e2, e3, e4, e5, e6, e7, e8, e9, e10, e11, wsNorm_idem, e13]

/-- C2: the markup scrubber is idempotent on text that is free of the
characters that its punctuation rules consume asymmetrically: on any
text without quotes, angle brackets, opening parentheses, colons,
commas, semicolons and hyphens and without the substring native, one
scrub reduces to whitespace normalization plus capitalization, and a
second scrub leaves that result unchanged.  (Unqualified idempotence is
refuted separately: a leading double colon loses one colon per scrub.) -/
theorem scrub_idempotent_on_plain (s : Str)
    (h1 : '\'' ∉ s) (h2 : '<' ∉ s) (h3 : '(' ∉ s) (h4 : ':' ∉ s)
    (h5 : ',' ∉ s) (h6 : ';' ∉ s) (h7 : '-' ∉ s)
    (h8 : containsSub (str "native") s = false) :
    scrubChars (scrubChars s) = scrubChars s := by
  have hs : scrubChars s = capRule (wsNorm s) :=
    scrub_plain h1 h2 h3 h4 h5 h6 h7 h8
  have hmt : ∀ c : Char, ¬(65 ≤ c.toNat ∧ c.toNat ≤ 90) → ¬c = ' ' →
      c ∉ s → c ∉ capRule (wsNorm s) := by
    intro c hr hsp hcs hin
    rcases mem_capRule hin with hin2 | hin2
    · rcases mem_wsNorm hin2 with he | he
      · exact hsp he
      · exact hcs he
    · exact hr hin2
  have t8 : containsSub (str "native") (capRule (wsNorm s)) = false := by
    cases hq : containsSub (str "native") (capRule (wsNorm s)) with
    | false => rfl
    | true =>
      have hq2 : containsSub ('n' :: str "ative") (capRule (wsNorm s)) = true := by
        rw [show ('n' :: str "ative") = str "native" from by decide]
        exact hq
      have hq3 := containsSub_capRule (by decide) hq2
      have hq4 : containsSub (str "native") (wsNorm s) = true := by
        rw [show str "native" = ('n' :: str "ative") from by decide]
        exact hq3
      have hq5 := containsSub_wsNorm (by decide) hq4
      rw [h8] at hq5
      exact absurd hq5 (by simp)
  have hst : scrubChars (capRule (wsNorm s))
      = capRule (wsNorm (capRule (wsNorm s))) :=
    scrub_plain (hmt _ (by decide) (by decide) h1) (hmt _ (by decide) (by decide) h2)
      (hmt _ (by decide) (by decide) h3) (hmt _ (by decide) (by decide) h4)
      (hmt _ (by decide) (by decide) h5) (hmt _ (by decide) (by decide) h6)
      (hmt _ (by decide) (by decide) h7) t8
  rw [hs, hst, wsNorm_capRule, capRule_idem]

/-- Witness for the qualified idempotence: a concrete plain text
satisfies every exclusion and the double scrub equals the single one. -/
theorem scrub_idempotent_on_plain_witness :
    containsSub (str "native") (str "  hello   world du latin  ") = false ∧
    scrubChars (scrubChars (str "  hello   world du latin  "))
      = scrubChars (str "  hello   world du latin  ") :=
  ⟨by decide, scrub_idempotent_on_plain (str "  hello   world du latin  ")
    (by decide) (by decide) (by decide) (by decide) (by decide) (by decide)
    (by decide) (by decide)⟩

end Etym


